import Mathlib

/-!
Verification of the workspace synchronization and path-encryption engine of
mcp-cursearch.

The development shallowly embeds the TypeScript sources:

* `src/crypto/pathEncryption.ts` — the keyed, deterministic, segment-wise path
  encryption scheme (`V1MasterKeyedEncryptionScheme`, `encryptPathSegments`,
  `decryptPathSegments`, `toWindowsRelative`, `toPosixRelative`,
  `encryptPathWindows`, `decryptPathToRelPosix`).
* `src/utils/semaphore.ts` — the counting semaphore with FIFO queuing and
  linear-backoff retry (`Semaphore.acquire/release`, `withRetrySemaphore`).
* `src/services/stateManager.ts` — atomic replace-on-write state persistence
  (`saveWorkspaceState`).
* `src/services/repositoryIndexer.ts` — the indexing engine
  (`initialHandshake`, `validateCodebasePathKey`, `indexProject`,
  `incrementalSync`, `autoSyncIfNeeded`).

Modelling conventions:

* JS strings holding path data are modelled as byte lists (`List Nat`);
  segment splitting, padding and NUL-stripping act on bytes exactly as the
  source acts on characters (path data is ASCII-compatible, and UTF-8
  continuation bytes are never separator bytes, so splitting commutes with
  the encoding).
* The opaque cryptographic primitives the source obtains from Node
  (`crypto.createHash("sha256")`, `crypto.createHmac("sha256", ·)`, the
  `aes-256-ctr` keystream, and Buffer base64url encoding) are bundled in a
  `CryptoPrims` parameter.  AES-CTR encryption/decryption is exactly
  XOR-with-keystream, which the embedding represents directly; everything
  proved holds for every choice of primitives (with the well-formedness
  facts `PrimsOK` that the real primitives satisfy: base64url decoding
  inverts encoding, base64url output uses only URL-safe alphabet characters
  and is non-empty on non-empty input, HMAC-SHA256 digests have 32 bytes,
  and the CTR keystream has the requested length).
* `aes-256-ctr` decryption is a stream-cipher XOR: Node's
  `decipher.update/final` cannot throw for this algorithm, and
  `Buffer.from(s, "base64url")` never throws either, so `decrypt` is total;
  its `Except` result is therefore always `Except.ok` by construction.
* The asynchronous engine is embedded as pure functions over an environment
  record that supplies the collaborator results (server handshake/diff
  responses, file contents, hashes, directory listings, entropy), producing
  an event trace recording the externally visible actions (handshake RPCs,
  diff queries, decryption of server-supplied hinted paths, file-upload RPCs,
  ensure-index / sync-complete RPCs, and state writes).  The
  semaphore-bounded concurrent loops are serialized; this preserves the
  set of emitted events and the control-flow facts proved here.
-/

namespace McpCursearch

/-- Decidable equality for `Except`, used to evaluate the development on
closed inputs. -/
instance exceptDecEq {ε α : Type} [DecidableEq ε] [DecidableEq α] :
    DecidableEq (Except ε α)
  | Except.ok a, Except.ok b =>
    if h : a = b then isTrue (by rw [h])
    else isFalse (by intro hc; injection hc; contradiction)
  | Except.ok _, Except.error _ => isFalse (by intro hc; exact Except.noConfusion hc)
  | Except.error _, Except.ok _ => isFalse (by intro hc; exact Except.noConfusion hc)
  | Except.error e, Except.error f =>
    if h : e = f then isTrue (by rw [h])
    else isFalse (by intro hc; injection hc; contradiction)

/-! ## Byte-level path utilities (src/crypto/pathEncryption.ts) -/

/-- Separator bytes captured by the splitting regex `SEG_SPLIT_RE = /([./\\])/`:
a dot (46), a forward slash (47) or a backslash (92). -/
def isSepByte (c : Nat) : Bool := c == 46 || c == 47 || c == 92

/-- Worker for `splitSegs`: scans the input, accumulating the current run of
non-separator bytes (in reverse); a separator flushes the run and is emitted
as its own single-byte part.  This reproduces
`String.split(/([./\\])/).filter(x => x !== "")`: maximal non-separator runs
interleaved with the captured one-byte separators, empty pieces dropped. -/
def splitSegsGo : List Nat → List Nat → List (List Nat)
  | [], acc => if acc = [] then [] else [acc.reverse]
  | c :: rest, acc =>
    if isSepByte c then
      (if acc = [] then [[c]] else [acc.reverse, [c]]) ++ splitSegsGo rest []
    else splitSegsGo rest (c :: acc)

/-- `path.split(SEG_SPLIT_RE).filter(x => x !== "")` from
`encryptPathSegments` / `decryptPathSegments`. -/
def splitSegs (l : List Nat) : List (List Nat) := splitSegsGo l []

/-- `dec.replace(/\0+$/ , "")` — strip all trailing NUL bytes. -/
def stripTrailingNul (l : List Nat) : List Nat :=
  (l.reverse.dropWhile (fun b => b == 0)).reverse

/-- `pad4` from `V1MasterKeyedEncryptionScheme.encrypt`: right-pad with NUL
bytes to a multiple of four. -/
def pad4 (s : List Nat) : List Nat := s ++ List.replicate ((4 - s.length % 4) % 4) 0

/-- CTR-mode encryption/decryption: XOR the data with the keystream. -/
def xorBytes (a b : List Nat) : List Nat := List.zipWith (fun x y => x ^^^ y) a b

/-! ## Cryptographic primitives -/

/-- The primitives the source takes from Node's `crypto` module and `Buffer`
encoding, kept abstract: everything below is proved for an arbitrary choice. -/
structure CryptoPrims where
  sha256 : List Nat → List Nat
  hmacSha256 : List Nat → List Nat → List Nat
  ctrKeystream : List Nat → List Nat → Nat → List Nat
  b64encode : List Nat → List Nat
  b64decode : List Nat → List Nat

/-- The well-formedness facts about the real primitives that the proofs use:
base64url decoding inverts encoding; base64url output consists of URL-safe
alphabet bytes (never `.`, `/` or `\`) and is non-empty on non-empty input;
an HMAC-SHA256 digest has 32 bytes; the CTR keystream has the requested
length. -/
structure PrimsOK (P : CryptoPrims) : Prop where
  decode_encode : ∀ bs, P.b64decode (P.b64encode bs) = bs
  encode_no_sep : ∀ bs c, c ∈ P.b64encode bs → isSepByte c = false
  encode_ne_nil : ∀ bs, bs ≠ [] → P.b64encode bs ≠ []
  hmac_len : ∀ k m, (P.hmacSha256 k m).length = 32
  ks_len : ∀ k iv n, (P.ctrKeystream k iv n).length = n

/-- `V1MasterKeyedEncryptionScheme`: the constructor derives a MAC key and an
encryption key from the master key by domain-separated SHA-256. -/
structure V1MasterKeyedEncryptionScheme where
  masterKeyRaw : List Nat
  macKey : List Nat
  encKey : List Nat
deriving DecidableEq

/-- `new V1MasterKeyedEncryptionScheme(masterKeyBase64Url)`:
`t = Buffer.from(masterKeyBase64Url, "base64url")`,
`macKey = sha256(t ++ [0])`, `encKey = sha256(t ++ [1])`. -/
def mkScheme (P : CryptoPrims) (masterKeyBase64Url : List Nat) :
    V1MasterKeyedEncryptionScheme :=
  let t := P.b64decode masterKeyBase64Url
  { masterKeyRaw := masterKeyBase64Url
    macKey := P.sha256 (t ++ [0])
    encKey := P.sha256 (t ++ [1]) }

/-- `scheme.encrypt(segment)`: the nonce prefix is the first 6 bytes of
`HMAC-SHA256(macKey, segment)`; the IV is that prefix zero-extended to
16 bytes; the NUL-padded segment is AES-256-CTR encrypted (XOR with the
keystream); the transported value is `base64url(prefix ++ ciphertext)`. -/
def segEncrypt (P : CryptoPrims) (sch : V1MasterKeyedEncryptionScheme)
    (segment : List Nat) : List Nat :=
  let pfx := (P.hmacSha256 sch.macKey segment).take 6
  let iv := pfx ++ List.replicate 10 0
  let pt := pad4 segment
  let ct := xorBytes pt (P.ctrKeystream sch.encKey iv pt.length)
  P.b64encode (pfx ++ ct)

/-- Total core of `scheme.decrypt(encSegment)`: base64url-decode, split off
the 6-byte nonce prefix, XOR the payload with the keystream for the
reconstructed IV, strip trailing NULs. -/
def segDecrypt (P : CryptoPrims) (sch : V1MasterKeyedEncryptionScheme)
    (encSegment : List Nat) : List Nat :=
  let buf := P.b64decode encSegment
  let pfx := buf.take 6
  let iv := pfx ++ List.replicate 10 0
  let payload := buf.drop 6
  let dec := xorBytes payload (P.ctrKeystream sch.encKey iv payload.length)
  stripTrailingNul dec

/-- `scheme.encrypt` as called by path encryption. -/
def V1MasterKeyedEncryptionScheme.encrypt (sch : V1MasterKeyedEncryptionScheme)
    (P : CryptoPrims) (segment : List Nat) : List Nat :=
  segEncrypt P sch segment

/-- `scheme.decrypt`.  The `Except` channel represents a thrown exception;
for `aes-256-ctr` neither `createDecipheriv` nor `update`/`final` can throw
(stream cipher: no padding, no authentication tag), and
`Buffer.from(s, "base64url")` never throws, so the function always returns
`Except.ok` — there is no failure path in the source. -/
def V1MasterKeyedEncryptionScheme.decrypt (sch : V1MasterKeyedEncryptionScheme)
    (P : CryptoPrims) (encSegment : List Nat) : Except (List Nat) (List Nat) :=
  Except.ok (segDecrypt P sch encSegment)

/-- `toWindowsRelative(pathStr)`: `"."` for empty/`"."`; otherwise strip a
leading `"."` with optional `"/"` (regex `/^\.\/?/`), turn `/` into `\`,
and prepend `".\"`. -/
def stripLeadingDotSlash : List Nat → List Nat
  | [] => []
  | [c] => if c = 46 then [] else [c]
  | c :: d :: rest =>
    if c = 46 then (if d = 47 then rest else d :: rest) else c :: d :: rest

def toWindowsRelative (p : List Nat) : List Nat :=
  if p = [] ∨ p = [46] then [46]
  else
    let noLeading := stripLeadingDotSlash p
    let withBack := noLeading.map (fun c => if c = 47 then 92 else c)
    46 :: 92 :: withBack

/-- `toPosixRelative(pathStr)`: `"."` for empty/`"."`; otherwise strip a
leading `"."` with optional `"\"` (regex `/^\.\\?/`), turn `\` into `/`,
and map the empty result back to `"."`. -/
def stripLeadingDotBackslash : List Nat → List Nat
  | [] => []
  | [c] => if c = 46 then [] else [c]
  | c :: d :: rest =>
    if c = 46 then (if d = 92 then rest else d :: rest) else c :: d :: rest

def toPosixRelative (p : List Nat) : List Nat :=
  if p = [] ∨ p = [46] then [46]
  else
    let s := (stripLeadingDotBackslash p).map (fun c => if c = 92 then 47 else c)
    if s = [] then [46] else s

/-- Per-part transform of `encryptPathSegments`: separators and `"."` pass
through, every other part is encrypted. -/
def encSegPart (P : CryptoPrims) (sch : V1MasterKeyedEncryptionScheme)
    (seg : List Nat) : List Nat :=
  if seg = [47] ∨ seg = [92] ∨ seg = [46] then seg else segEncrypt P sch seg

/-- Per-part transform of `decryptPathSegments` (total core). -/
def decSegPart (P : CryptoPrims) (sch : V1MasterKeyedEncryptionScheme)
    (seg : List Nat) : List Nat :=
  if seg = [47] ∨ seg = [92] ∨ seg = [46] then seg else segDecrypt P sch seg

/-- `encryptPathSegments(plainPath, scheme)`. -/
def encryptPathSegments (P : CryptoPrims) (sch : V1MasterKeyedEncryptionScheme)
    (plainPath : List Nat) : List Nat :=
  if plainPath = [] ∨ plainPath = [46] then [46]
  else ((splitSegs plainPath).map (encSegPart P sch)).flatten

/-- Total core of `decryptPathSegments(encPath, scheme)` (its only possible
exception would come from `scheme.decrypt`, which cannot throw). -/
def decryptPathSegments (P : CryptoPrims) (sch : V1MasterKeyedEncryptionScheme)
    (encPath : List Nat) : List Nat :=
  if encPath = [] ∨ encPath = [46] then [46]
  else ((splitSegs encPath).map (decSegPart P sch)).flatten

/-- `encryptPathWindows(scheme, relPosix)`. -/
def encryptPathWindows (P : CryptoPrims) (sch : V1MasterKeyedEncryptionScheme)
    (relPosix : List Nat) : List Nat :=
  encryptPathSegments P sch (toWindowsRelative relPosix)

/-- Total core of `decryptPathToRelPosix(scheme, encPath)`. -/
def decryptPathToRelPosixCore (P : CryptoPrims)
    (sch : V1MasterKeyedEncryptionScheme) (encPath : List Nat) : List Nat :=
  toPosixRelative (decryptPathSegments P sch encPath)

/-- `decryptPathToRelPosix(scheme, encPath)`; like `scheme.decrypt` it has no
failure path, so the result is always `Except.ok`. -/
def decryptPathToRelPosix (P : CryptoPrims) (sch : V1MasterKeyedEncryptionScheme)
    (encPath : List Nat) : Except (List Nat) (List Nat) :=
  Except.ok (decryptPathToRelPosixCore P sch encPath)

/-! ## A concrete instantiation of the primitives

Used to evaluate the development on closed inputs.  The byte encoding is a
self-delimiting unary code over the URL-safe bytes `A` (65) and `Z` (90), so
`decode ∘ encode = id` holds unconditionally and the output never contains a
separator byte. -/

def toyEncodeByte (b : Nat) : List Nat := List.replicate b 65 ++ [90]

def toyEncode (bs : List Nat) : List Nat := (bs.map toyEncodeByte).flatten

def toyDecodeGo : List Nat → Nat → List Nat
  | [], _ => []
  | c :: rest, k => if c = 90 then k :: toyDecodeGo rest 0 else toyDecodeGo rest (k + 1)

def toyDecode (bs : List Nat) : List Nat := toyDecodeGo bs 0

def toyPrims : CryptoPrims :=
  { sha256 := fun bs => bs
    hmacSha256 := fun _ _ => List.replicate 32 7
    ctrKeystream := fun key _ n => List.replicate n (key.headD 0)
    b64encode := toyEncode
    b64decode := toyDecode }

theorem toyDecodeGo_encodeByte (b : Nat) (rest : List Nat) (k : Nat) :
    toyDecodeGo (toyEncodeByte b ++ rest) k = (k + b) :: toyDecodeGo rest 0 := by
  induction b generalizing k with
  | zero => simp [toyEncodeByte, toyDecodeGo]
  | succ m ih =>
    have : toyEncodeByte (m + 1) = 65 :: toyEncodeByte m := by
      simp [toyEncodeByte, List.replicate_succ]
    rw [this, List.cons_append]
    simp only [toyDecodeGo]
    rw [if_neg (by decide)]
    rw [ih]
    have harith : k + 1 + m = k + (m + 1) := by omega
    rw [harith]

theorem toyDecode_toyEncode (bs : List Nat) : toyDecode (toyEncode bs) = bs := by
  induction bs with
  | nil => rfl
  | cons b rest ih =>
    have h1 : toyEncode (b :: rest) = toyEncodeByte b ++ toyEncode rest := by
      simp [toyEncode]
    unfold toyDecode
    rw [h1, toyDecodeGo_encodeByte]
    simpa [toyDecode] using ih

theorem toyEncode_mem (bs : List Nat) (c : Nat) (h : c ∈ toyEncode bs) :
    c = 65 ∨ c = 90 := by
  simp only [toyEncode, List.mem_flatten, List.mem_map] at h
  obtain ⟨l, ⟨b, _, rfl⟩, hc⟩ := h
  simp only [toyEncodeByte, List.mem_append, List.mem_replicate, List.mem_singleton] at hc
  rcases hc with ⟨_, rfl⟩ | rfl
  · exact Or.inl rfl
  · exact Or.inr rfl

theorem toyPrims_ok : PrimsOK toyPrims := by
  refine ⟨?_, ?_, ?_, ?_, ?_⟩
  · exact toyDecode_toyEncode
  · intro bs c hc
    rcases toyEncode_mem bs c hc with rfl | rfl <;> rfl
  · intro bs hbs
    cases bs with
    | nil => exact absurd rfl hbs
    | cons b rest => simp [toyPrims, toyEncode, toyEncodeByte]
  · intro k m; rfl
  · intro k iv n; simp [toyPrims]

/-! ## Segment-level round trip -/

theorem xorBytes_cancel (pt ks : List Nat) (h : ks.length = pt.length) :
    xorBytes (xorBytes pt ks) ks = pt := by
  induction pt generalizing ks with
  | nil => cases ks <;> rfl
  | cons a l ih =>
    cases ks with
    | nil => simp at h
    | cons b ks2 =>
      simp only [xorBytes, List.zipWith_cons_cons]
      rw [show (a ^^^ b) ^^^ b = a by
        rw [Nat.xor_assoc, Nat.xor_self, Nat.xor_zero]]
      have := ih ks2 (by simpa using h)
      simpa [xorBytes] using this

theorem xorBytes_length (pt ks : List Nat) (h : ks.length = pt.length) :
    (xorBytes pt ks).length = pt.length := by
  simp [xorBytes, h]

theorem stripTrailingNul_append_replicate (s : List Nat) (k : Nat)
    (hs : s.getLast? ≠ some 0) :
    stripTrailingNul (s ++ List.replicate k 0) = s := by
  unfold stripTrailingNul
  rw [List.reverse_append, List.reverse_replicate]
  have hrep : ∀ n (l : List Nat),
      (List.replicate n 0 ++ l).dropWhile (fun b => b == 0) =
        l.dropWhile (fun b => b == 0) := by
    intro n
    induction n with
    | zero => intro l; simp
    | succ m ih => intro l; simp [List.replicate_succ, List.dropWhile, ih]
  rw [hrep]
  cases hrev : s.reverse with
  | nil =>
    simpa using (List.reverse_eq_nil_iff.mp hrev).symm
  | cons a t =>
    have ha : a ≠ 0 := by
      intro rfl0
      apply hs
      rw [← List.head?_reverse, hrev]
      simp [rfl0]
    rw [List.dropWhile_cons_of_neg (by simpa using ha)]
    rw [← hrev, List.reverse_reverse]

theorem stripTrailingNul_pad4 (s : List Nat) (hs : s.getLast? ≠ some 0) :
    stripTrailingNul (pad4 s) = s :=
  stripTrailingNul_append_replicate s _ hs

/-- Segment round trip: decrypting the encryption of a segment under the same
scheme returns the segment, provided the segment does not end in a NUL byte
(trailing NULs are indistinguishable from the padding and are stripped). -/
theorem segDecrypt_segEncrypt (P : CryptoPrims) (hP : PrimsOK P)
    (sch : V1MasterKeyedEncryptionScheme) (s : List Nat)
    (hs : s.getLast? ≠ some 0) :
    segDecrypt P sch (segEncrypt P sch s) = s := by
  have hpfx : ((P.hmacSha256 sch.macKey s).take 6).length = 6 := by
    simp [List.length_take, hP.hmac_len]
  have hkslen :
      (P.ctrKeystream sch.encKey ((P.hmacSha256 sch.macKey s).take 6 ++
        List.replicate 10 0) (pad4 s).length).length = (pad4 s).length :=
    hP.ks_len _ _ _
  simp only [segEncrypt, segDecrypt, hP.decode_encode]
  rw [List.take_left' hpfx, List.drop_left' hpfx]
  rw [xorBytes_length _ _ hkslen, xorBytes_cancel _ _ hkslen]
  exact stripTrailingNul_pad4 s hs

/-! ## Split/join theory for segment-wise path transforms -/

/-- Shape of the part lists produced by `splitSegs`: each part is either a
single separator byte or a non-empty run of non-separator bytes, and a run is
never directly followed by another run. -/
inductive WfParts : List (List Nat) → Prop
  | nil : WfParts []
  | sep (c : Nat) (hc : isSepByte c = true) {tail : List (List Nat)}
      (ht : WfParts tail) : WfParts ([c] :: tail)
  | run (r : List Nat) (hne : r ≠ []) (hns : ∀ c ∈ r, isSepByte c = false)
      {tail : List (List Nat)}
      (hsep : tail = [] ∨ ∃ c t, tail = [c] :: t ∧ isSepByte c = true)
      (ht : WfParts tail) : WfParts (r :: tail)

theorem splitSegsGo_flatten (l : List Nat) :
    ∀ acc, (splitSegsGo l acc).flatten = acc.reverse ++ l := by
  induction l with
  | nil =>
    intro acc
    by_cases hacc : acc = [] <;> simp [splitSegsGo, hacc]
  | cons c rest ih =>
    intro acc
    by_cases hc : isSepByte c = true
    · by_cases hacc : acc = [] <;>
        simp [splitSegsGo, hc, hacc, ih]
    · rw [show splitSegsGo (c :: rest) acc = splitSegsGo rest (c :: acc) by
        simp [splitSegsGo, hc]]
      rw [ih (c :: acc)]
      simp

/-- `splitSegs` splits the input into exactly the parts whose concatenation is
the input. -/
theorem splitSegs_flatten (l : List Nat) : (splitSegs l).flatten = l := by
  simpa using splitSegsGo_flatten l []

theorem wfParts_splitSegsGo (l : List Nat) :
    ∀ acc, (∀ c ∈ acc, isSepByte c = false) → WfParts (splitSegsGo l acc) := by
  induction l with
  | nil =>
    intro acc hacc
    by_cases h : acc = []
    · simp [splitSegsGo, h]; exact WfParts.nil
    · simp only [splitSegsGo, if_neg h]
      exact WfParts.run acc.reverse (by simpa using h)
        (fun c hc => hacc c (List.mem_reverse.mp hc)) (Or.inl rfl) WfParts.nil
  | cons c rest ih =>
    intro acc hacc
    by_cases hc : isSepByte c = true
    · by_cases h : acc = []
      · simp only [splitSegsGo, hc, if_pos h, if_true]
        simpa using WfParts.sep c hc (ih [] (by simp))
      · simp only [splitSegsGo, hc, if_neg h, if_true]
        refine WfParts.run acc.reverse (by simpa using h)
          (fun d hd => hacc d (List.mem_reverse.mp hd)) ?_ ?_
        · exact Or.inr ⟨c, splitSegsGo rest [], rfl, hc⟩
        · exact WfParts.sep c hc (ih [] (by simp))
    · rw [show splitSegsGo (c :: rest) acc = splitSegsGo rest (c :: acc) by
        simp [splitSegsGo, hc]]
      refine ih (c :: acc) ?_
      intro d hd
      rcases List.mem_cons.mp hd with rfl | hd2
      · simpa using hc
      · exact hacc d hd2

theorem wfParts_splitSegs (l : List Nat) : WfParts (splitSegs l) :=
  wfParts_splitSegsGo l [] (by simp)

theorem splitSegsGo_run_append (r : List Nat)
    (hr : ∀ c ∈ r, isSepByte c = false) :
    ∀ (x acc : List Nat), splitSegsGo (r ++ x) acc = splitSegsGo x (r.reverse ++ acc) := by
  induction r with
  | nil => intro x acc; simp
  | cons c r2 ih =>
    intro x acc
    have hc : isSepByte c = false := hr c (List.mem_cons_self ..)
    rw [List.cons_append,
      show splitSegsGo (c :: (r2 ++ x)) acc = splitSegsGo (r2 ++ x) (c :: acc) by
        simp [splitSegsGo, hc]]
    rw [ih (fun d hd => hr d (List.mem_cons_of_mem c hd)) x (c :: acc)]
    simp

/-- On well-formed part lists, splitting the concatenation recovers the parts. -/
theorem splitSegs_flatten_of_wf {ps : List (List Nat)} (h : WfParts ps) :
    splitSegs ps.flatten = ps := by
  induction h with
  | nil => rfl
  | @sep c hc tail ht ih =>
    have ih2 : splitSegsGo tail.flatten [] = tail := ih
    show splitSegsGo (([c] :: tail).flatten) [] = [c] :: tail
    rw [List.flatten_cons, List.singleton_append]
    simp only [splitSegsGo, hc, if_pos rfl, if_true]
    rw [ih2]
    rfl
  | @run r hne hns tail hsep ht ih =>
    show splitSegsGo ((r :: tail).flatten) [] = r :: tail
    rw [List.flatten_cons, splitSegsGo_run_append r hns _ []]
    rcases hsep with rfl | ⟨c, t, rfl, hc⟩
    · show splitSegsGo [] (r.reverse ++ []) = [r]
      simp only [splitSegsGo, List.append_nil]
      rw [if_neg (by simpa using hne)]
      simp
    · have ih2 : splitSegsGo (([c] :: t).flatten) [] = [c] :: t := ih
      rw [List.flatten_cons, List.singleton_append] at ih2
      simp only [splitSegsGo, hc, if_pos rfl, if_true] at ih2
      have ih3 : splitSegsGo t.flatten [] = t := by simpa using ih2
      rw [List.flatten_cons, List.singleton_append]
      simp only [splitSegsGo, hc, List.append_nil, if_true]
      rw [if_neg (by simpa using hne), ih3]
      simp

theorem wfParts_map {ps : List (List Nat)} (f : List Nat → List Nat)
    (hsep : ∀ c, isSepByte c = true → ∃ c2, f [c] = [c2] ∧ isSepByte c2 = true)
    (hrun : ∀ r, r ≠ [] → (∀ c ∈ r, isSepByte c = false) →
      f r ≠ [] ∧ ∀ c ∈ f r, isSepByte c = false)
    (h : WfParts ps) : WfParts (ps.map f) := by
  induction h with
  | nil => exact WfParts.nil
  | @sep c hc tail ht ih =>
    obtain ⟨c2, hfc, hc2⟩ := hsep c hc
    rw [List.map_cons, hfc]
    exact WfParts.sep c2 hc2 ih
  | @run r hne hns tail hsepT ht ih =>
    obtain ⟨hfne, hfns⟩ := hrun r hne hns
    rw [List.map_cons]
    refine WfParts.run (f r) hfne hfns ?_ ih
    rcases hsepT with rfl | ⟨c, t, rfl, hc⟩
    · exact Or.inl rfl
    · obtain ⟨c2, hfc, hc2⟩ := hsep c hc
      exact Or.inr ⟨c2, t.map f, by rw [List.map_cons, hfc], hc2⟩

/-- Splitting commutes with a byte map that preserves separator status. -/
theorem splitSegsGo_map (sub : Nat → Nat)
    (hsub : ∀ c, isSepByte (sub c) = isSepByte c) (l : List Nat) :
    ∀ acc, splitSegsGo (l.map sub) (acc.map sub) =
      (splitSegsGo l acc).map (List.map sub) := by
  induction l with
  | nil =>
    intro acc
    by_cases hacc : acc = []
    · simp [splitSegsGo, hacc]
    · rw [List.map_nil]
      simp only [splitSegsGo]
      rw [if_neg (by simpa using hacc), if_neg hacc]
      simp [List.map_reverse]
  | cons c rest ih =>
    intro acc
    rw [List.map_cons]
    by_cases hc : isSepByte c = true
    · have hc2 : isSepByte (sub c) = true := by rw [hsub]; exact hc
      by_cases hacc : acc = []
      · simp only [splitSegsGo, hc, hc2, if_true, hacc, List.map_nil, if_pos rfl]
        have := ih ([] : List Nat)
        simp only [List.map_nil] at this
        simp [this]
      · simp only [splitSegsGo, hc, hc2, if_true]
        rw [if_neg (by simpa using hacc), if_neg hacc]
        have := ih ([] : List Nat)
        simp only [List.map_nil] at this
        simp [this, List.map_reverse]
    · have hc2 : isSepByte (sub c) = false := by rw [hsub]; simpa using hc
      simp only [splitSegsGo, hc, hc2, if_false, Bool.false_eq_true]
      have := ih (c :: acc)
      rw [List.map_cons] at this
      simpa using this

theorem splitSegs_map (sub : Nat → Nat)
    (hsub : ∀ c, isSepByte (sub c) = isSepByte c) (l : List Nat) :
    splitSegs (l.map sub) = (splitSegs l).map (List.map sub) := by
  have := splitSegsGo_map sub hsub l []
  simpa [splitSegs] using this

/-! ## Path-level round trip -/

/-- A run part satisfies this when it does not end in a NUL byte (trailing
NULs are absorbed by the cipher padding); separator parts satisfy it
trivially. -/
def goodSeg (r : List Nat) : Prop :=
  isSepByte (r.headD 46) = true ∨ r.getLast? ≠ some 0

instance : DecidablePred goodSeg := fun r => by
  unfold goodSeg; infer_instance

/-- Domain on which the source's path round trip is exact: the path is `"."`,
or it is non-empty, already normalized (does not start with a `.` byte, so the
`/^\.\/?/` stripping in `toWindowsRelative` is the identity), contains no
backslash (so the `/` ↔ `\` separator conversion is invertible), and none of
its segments ends in a NUL byte. -/
def GoodRelPosix (p : List Nat) : Prop :=
  p = [46] ∨ (p ≠ [] ∧ p.head? ≠ some 46 ∧ 92 ∉ p ∧ ∀ r ∈ splitSegs p, goodSeg r)

instance : DecidablePred GoodRelPosix := fun p => by
  unfold GoodRelPosix; infer_instance

theorem stripLeadingDotSlash_of_head_ne (p : List Nat) (h : p.head? ≠ some 46) :
    stripLeadingDotSlash p = p := by
  match p with
  | [] => rfl
  | [c] =>
    have hc : c ≠ 46 := by simpa using h
    simp [stripLeadingDotSlash, hc]
  | c :: d :: rest =>
    have hc : c ≠ 46 := by simpa using h
    simp [stripLeadingDotSlash, hc]

theorem stripLeadingDotBackslash_cons (x : List Nat) :
    stripLeadingDotBackslash (46 :: 92 :: x) = x := by
  simp [stripLeadingDotBackslash]

theorem splitSegs_sep_cons (c : Nat) (l : List Nat) (hc : isSepByte c = true) :
    splitSegs (c :: l) = [c] :: splitSegs l := by
  simp [splitSegs, splitSegsGo, hc]

theorem wfParts_mem {ps : List (List Nat)} (h : WfParts ps) :
    ∀ r ∈ ps, (∃ c, r = [c] ∧ isSepByte c = true) ∨
      (r ≠ [] ∧ ∀ c ∈ r, isSepByte c = false) := by
  induction h with
  | nil => intro r hr; simp at hr
  | @sep c hc tail ht ih =>
    intro r hr
    rcases List.mem_cons.mp hr with rfl | hr2
    · exact Or.inl ⟨c, rfl, hc⟩
    · exact ih r hr2
  | @run r0 hne hns tail hsepT ht ih =>
    intro r hr
    rcases List.mem_cons.mp hr with rfl | hr2
    · exact Or.inr ⟨hne, hns⟩
    · exact ih r hr2

theorem mapIdOn {f : Nat → Nat} {l : List Nat} (h : ∀ c ∈ l, f c = c) :
    l.map f = l := by
  induction l with
  | nil => rfl
  | cons a t ih =>
    rw [List.map_cons, h a (List.mem_cons_self ..), ih fun c hc => h c (List.mem_cons_of_mem a hc)]

theorem encSegPart_sep (P : CryptoPrims) (sch : V1MasterKeyedEncryptionScheme)
    (c : Nat) (hc : isSepByte c = true) : encSegPart P sch [c] = [c] := by
  have : c = 46 ∨ c = 47 ∨ c = 92 := by
    simp only [isSepByte, Bool.or_eq_true, beq_iff_eq] at hc
    tauto
  unfold encSegPart
  rcases this with rfl | rfl | rfl <;> simp

theorem decSegPart_sep (P : CryptoPrims) (sch : V1MasterKeyedEncryptionScheme)
    (c : Nat) (hc : isSepByte c = true) : decSegPart P sch [c] = [c] := by
  have : c = 46 ∨ c = 47 ∨ c = 92 := by
    simp only [isSepByte, Bool.or_eq_true, beq_iff_eq] at hc
    tauto
  unfold decSegPart
  rcases this with rfl | rfl | rfl <;> simp

theorem notSingletonSep_of_nonsep {r : List Nat}
    (hns : ∀ c ∈ r, isSepByte c = false) :
    ¬(r = [47] ∨ r = [92] ∨ r = [46]) := by
  rintro (rfl | rfl | rfl)
  · simpa [isSepByte] using hns 47 (by simp)
  · simpa [isSepByte] using hns 92 (by simp)
  · simpa [isSepByte] using hns 46 (by simp)

theorem encSegPart_run (P : CryptoPrims) (sch : V1MasterKeyedEncryptionScheme)
    {r : List Nat} (hns : ∀ c ∈ r, isSepByte c = false) :
    encSegPart P sch r = segEncrypt P sch r := by
  unfold encSegPart
  rw [if_neg (notSingletonSep_of_nonsep hns)]

theorem segEncrypt_ne_nil (P : CryptoPrims) (hP : PrimsOK P)
    (sch : V1MasterKeyedEncryptionScheme) (r : List Nat) :
    segEncrypt P sch r ≠ [] := by
  unfold segEncrypt
  apply hP.encode_ne_nil
  intro hcontra
  have hlen := congrArg List.length hcontra
  rw [List.length_append, List.length_take, hP.hmac_len] at hlen
  simp only [List.length_nil] at hlen
  omega

theorem segEncrypt_nonsep (P : CryptoPrims) (hP : PrimsOK P)
    (sch : V1MasterKeyedEncryptionScheme) (r : List Nat) :
    ∀ c ∈ segEncrypt P sch r, isSepByte c = false := by
  intro c hc
  exact hP.encode_no_sep _ c hc

theorem decSegPart_segEncrypt (P : CryptoPrims) (hP : PrimsOK P)
    (sch : V1MasterKeyedEncryptionScheme) {r : List Nat}
    (hlast : r.getLast? ≠ some 0) :
    decSegPart P sch (segEncrypt P sch r) = r := by
  unfold decSegPart
  rw [if_neg (notSingletonSep_of_nonsep (segEncrypt_nonsep P hP sch r))]
  exact segDecrypt_segEncrypt P hP sch r hlast

/-- The path-level round trip on the good domain: encrypting a normalized
workspace-relative POSIX path with `encryptPathWindows` and decrypting with
`decryptPathToRelPosix` (total core) returns the path exactly. -/
theorem pathRoundTrip (P : CryptoPrims) (hP : PrimsOK P)
    (sch : V1MasterKeyedEncryptionScheme) (p : List Nat)
    (hGood : GoodRelPosix p) :
    decryptPathToRelPosixCore P sch (encryptPathWindows P sch p) = p := by
  rcases hGood with rfl | ⟨hne, hhead, hnb, hsegs⟩
  · rfl
  · have hp46 : p ≠ [46] := by
      intro h
      rw [h] at hhead
      simp at hhead
    -- the two separator substitutions
    set sub1 : Nat → Nat := fun c => if c = 47 then 92 else c with hsub1
    have hsub1sep : ∀ c, isSepByte (sub1 c) = isSepByte c := by
      intro c
      by_cases h : c = 47 <;> simp [hsub1, h, isSepByte]
    -- windows form of the path
    have hwin : toWindowsRelative p = 46 :: 92 :: p.map sub1 := by
      unfold toWindowsRelative
      rw [if_neg (by simp [hne, hp46]), stripLeadingDotSlash_of_head_ne p hhead]
    set ps := splitSegs p with hpsdef
    have hwf : WfParts ps := wfParts_splitSegs p
    have hsplitwin : splitSegs (toWindowsRelative p) =
        [46] :: [92] :: ps.map (List.map sub1) := by
      rw [hwin, splitSegs_sep_cons 46 _ (by rfl), splitSegs_sep_cons 92 _ (by rfl),
        splitSegs_map sub1 hsub1sep p]
    -- well-formedness of the encrypted part list
    have hwfm1 : WfParts (ps.map (List.map sub1)) := by
      refine wfParts_map (List.map sub1) ?_ ?_ hwf
      · intro c hc
        exact ⟨sub1 c, rfl, by rw [hsub1sep]; exact hc⟩
      · intro r hrne hrns
        constructor
        · simpa using hrne
        · intro c hc
          obtain ⟨d, hd, rfl⟩ := List.mem_map.mp hc
          rw [hsub1sep]
          exact hrns d hd
    have hwfwin : WfParts ([46] :: [92] :: ps.map (List.map sub1)) :=
      WfParts.sep 46 (by rfl) (WfParts.sep 92 (by rfl) hwfm1)
    have hwfenc : WfParts (([46] :: [92] :: ps.map (List.map sub1)).map (encSegPart P sch)) := by
      refine wfParts_map (encSegPart P sch) ?_ ?_ hwfwin
      · intro c hc
        exact ⟨c, encSegPart_sep P sch c hc, hc⟩
      · intro r hrne hrns
        rw [encSegPart_run P sch hrns]
        exact ⟨segEncrypt_ne_nil P hP sch r, segEncrypt_nonsep P hP sch r⟩
    -- the encrypted path and its split
    have hencValue : encryptPathWindows P sch p =
        (([46] :: [92] :: ps.map (List.map sub1)).map (encSegPart P sch)).flatten := by
      unfold encryptPathWindows encryptPathSegments
      rw [if_neg (by rw [hwin]; simp), hsplitwin]
    have hmapHead : ([46] :: [92] :: ps.map (List.map sub1)).map (encSegPart P sch) =
        [46] :: [92] :: (ps.map (List.map sub1)).map (encSegPart P sch) := by
      rw [List.map_cons, List.map_cons,
        encSegPart_sep P sch 46 (by rfl), encSegPart_sep P sch 92 (by rfl)]
    have hencCons : ∃ restE, encryptPathWindows P sch p = 46 :: 92 :: restE := by
      refine ⟨((ps.map (List.map sub1)).map (encSegPart P sch)).flatten, ?_⟩
      rw [hencValue, hmapHead]
      simp
    -- decryption undoes the per-part encryption
    have hdecParts :
        (([46] :: [92] :: ps.map (List.map sub1)).map (encSegPart P sch)).map
          (decSegPart P sch) = [46] :: [92] :: ps.map (List.map sub1) := by
      rw [List.map_map]
      rw [show ([46] :: [92] :: ps.map (List.map sub1)).map
            (decSegPart P sch ∘ encSegPart P sch) =
          ([46] :: [92] :: ps.map (List.map sub1)).map id from ?_, List.map_id]
      refine List.map_congr_left ?_
      intro q hq
      rcases List.mem_cons.mp hq with rfl | hq2
      · rw [Function.comp_apply, encSegPart_sep P sch 46 (by rfl),
          decSegPart_sep P sch 46 (by rfl)]; rfl
      rcases List.mem_cons.mp hq2 with rfl | hq3
      · rw [Function.comp_apply, encSegPart_sep P sch 92 (by rfl),
          decSegPart_sep P sch 92 (by rfl)]; rfl
      obtain ⟨r, hrps, rfl⟩ := List.mem_map.mp hq3
      rcases wfParts_mem hwf r hrps with ⟨c, rfl, hc⟩ | ⟨hrne, hrns⟩
      · have : List.map sub1 [c] = [sub1 c] := rfl
        rw [this, Function.comp_apply, encSegPart_sep P sch (sub1 c) (by rw [hsub1sep]; exact hc),
          decSegPart_sep P sch (sub1 c) (by rw [hsub1sep]; exact hc)]
        rfl
      · have hrid : r.map sub1 = r := by
          refine mapIdOn ?_
          intro c hcr
          have : c ≠ 47 := by
            intro rfl2
            rw [rfl2] at hcr
            simpa [isSepByte] using hrns 47 hcr
          simp [hsub1, this]
        rw [hrid, Function.comp_apply, encSegPart_run P sch hrns]
        have hgood : r.getLast? ≠ some 0 := by
          rcases hsegs r hrps with hhd | hlast
          · exfalso
            cases r with
            | nil => exact hrne rfl
            | cons a t =>
              have := hrns a (List.mem_cons_self ..)
              rw [show (a :: t).headD 46 = a from rfl] at hhd
              rw [this] at hhd
              exact Bool.false_ne_true hhd
          · exact hlast
        rw [decSegPart_segEncrypt P hP sch hgood]
        rfl
    -- assemble
    obtain ⟨restE, hE⟩ := hencCons
    unfold decryptPathToRelPosixCore decryptPathSegments
    rw [if_neg (by rw [hE]; simp)]
    rw [hencValue, splitSegs_flatten_of_wf hwfenc, hdecParts]
    have hflat : ([46] :: [92] :: ps.map (List.map sub1)).flatten =
        46 :: 92 :: p.map sub1 := by
      have : (ps.map (List.map sub1)).flatten = ps.flatten.map sub1 := by
        rw [List.map_flatten]
      rw [List.flatten_cons, List.flatten_cons, this, hpsdef, splitSegs_flatten]
      rfl
    rw [hflat]
    unfold toPosixRelative
    rw [if_neg (by simp), stripLeadingDotBackslash_cons]
    have hback : (p.map sub1).map (fun c => if c = 92 then 47 else c) = p := by
      rw [List.map_map]
      refine mapIdOn ?_
      intro c hcp
      have hc92 : c ≠ 92 := fun h => hnb (h ▸ hcp)
      by_cases h47 : c = 47 <;> simp [hsub1, h47, hc92]
    rw [hback, if_neg hne]

/-! ## Claims C2, C3, C9 -/

/-- C2 (counterexample).  The claim asserts the round trip
`decryptPathToRelPosix(scheme(k), encryptPathWindows(scheme(k), p)) == p`
for **every** path `p` and `scheme.decrypt(scheme.encrypt(s)) == s` for
**every** segment `s`.  Both universals fail: the empty path encrypts and
decrypts to `"."` (byte 46), because `toWindowsRelative` maps `""` to `"."`
and nothing restores the difference; and the segment consisting of a single
NUL byte decrypts to the empty segment, because the decryption's trailing-NUL
strip cannot distinguish segment bytes from the cipher padding. -/
theorem c2_roundtrip_counterexample :
    decryptPathToRelPosix toyPrims (mkScheme toyPrims [])
        (encryptPathWindows toyPrims (mkScheme toyPrims []) []) =
      Except.ok [46] ∧ ([46] : List Nat) ≠ [] ∧
    (mkScheme toyPrims []).decrypt toyPrims
        ((mkScheme toyPrims []).encrypt toyPrims [0]) = Except.ok [] ∧
    ([] : List Nat) ≠ [0] := by
  refine ⟨by rfl, by decide, by rfl, by decide⟩

/-- C2 (amended).  For every choice of primitives and key, the round trip is
exact on the domain actually used by the engine: workspace-relative POSIX
paths that are `"."` or are non-empty, do not start with a `.` byte, contain
no backslash, and have no segment ending in a NUL byte; and at segment level
`decrypt(encrypt(s)) = s` (never an error) for every segment not ending in a
NUL byte. -/
theorem c2_roundtrip_amended (P : CryptoPrims) (hP : PrimsOK P) (key : List Nat) :
    (∀ p, GoodRelPosix p →
      decryptPathToRelPosix P (mkScheme P key)
        (encryptPathWindows P (mkScheme P key) p) = Except.ok p) ∧
    (∀ s, s.getLast? ≠ some 0 →
      (mkScheme P key).decrypt P ((mkScheme P key).encrypt P s) = Except.ok s) := by
  constructor
  · intro p hp
    exact congrArg Except.ok (pathRoundTrip P hP (mkScheme P key) p hp)
  · intro s hs
    exact congrArg Except.ok (segDecrypt_segEncrypt P hP (mkScheme P key) s hs)

/-- Witness for C2 (amended): a concrete primitive instance, key, path and
segment satisfying the hypotheses, with the round trip instantiated there. -/
theorem c2_roundtrip_amended_witness :
    GoodRelPosix [97] ∧ ([97] : List Nat).getLast? ≠ some 0 ∧
    (decryptPathToRelPosix toyPrims (mkScheme toyPrims [])
        (encryptPathWindows toyPrims (mkScheme toyPrims []) [97]) =
      Except.ok [97] ∧
     (mkScheme toyPrims []).decrypt toyPrims
        ((mkScheme toyPrims []).encrypt toyPrims [97]) = Except.ok [97]) :=
  ⟨by decide, by decide,
    (c2_roundtrip_amended toyPrims toyPrims_ok []).1 [97] (by decide),
    (c2_roundtrip_amended toyPrims toyPrims_ok []).2 [97] (by decide)⟩

/-- C3 (counterexample).  The claim asserts that decrypting a ciphertext under
a different key "raises an error from an authenticated-padding/format check
rather than returning a plaintext string".  The cipher is `aes-256-ctr`, a
stream cipher with no authentication and no padding check; `decrypt` has no
failure path at all, and under a wrong key it simply returns a garbled byte
string.  Concretely, with the toy primitives, a segment encrypted under one
key decrypts under a different key to `Except.ok [98, 3, 3, 3]` — a returned
string (not an error) different from the plaintext `[97]`. -/
theorem c3_wrong_key_counterexample :
    (mkScheme toyPrims [90]).decrypt toyPrims
        ((mkScheme toyPrims [65, 65, 65, 90]).encrypt toyPrims [97]) =
      Except.ok [98, 3, 3, 3] ∧
    mkScheme toyPrims [90] ≠ mkScheme toyPrims [65, 65, 65, 90] ∧
    ([98, 3, 3, 3] : List Nat) ≠ [97] := by
  refine ⟨by rfl, by decide, by decide⟩

/-- C3 (amended).  Decrypting under the wrong key never raises: for arbitrary
schemes `sch1` (encryptor) and `sch2` (decryptor), the result is always
`Except.ok` of the NUL-stripped XOR of the padded plaintext with both
keystreams (taken at the IV derived from `sch1`'s MAC of the segment).  In
particular the result equals the plaintext only when the two keystreams agree
on the padded length; when they differ — the overwhelmingly likely case for
distinct keys — a garbled string is returned, as the counterexample shows.
Callers must detect wrong keys by other means; no error is signalled. -/
theorem c3_wrong_key_decrypt (P : CryptoPrims) (hP : PrimsOK P)
    (sch1 sch2 : V1MasterKeyedEncryptionScheme) (s : List Nat) :
    sch2.decrypt P (sch1.encrypt P s) =
      Except.ok (stripTrailingNul (xorBytes
        (xorBytes (pad4 s)
          (P.ctrKeystream sch1.encKey
            ((P.hmacSha256 sch1.macKey s).take 6 ++ List.replicate 10 0)
            (pad4 s).length))
        (P.ctrKeystream sch2.encKey
          ((P.hmacSha256 sch1.macKey s).take 6 ++ List.replicate 10 0)
          (pad4 s).length))) := by
  have hpfx : ((P.hmacSha256 sch1.macKey s).take 6).length = 6 := by
    simp [List.length_take, hP.hmac_len]
  have hkslen :
      (P.ctrKeystream sch1.encKey ((P.hmacSha256 sch1.macKey s).take 6 ++
        List.replicate 10 0) (pad4 s).length).length = (pad4 s).length :=
    hP.ks_len _ _ _
  unfold V1MasterKeyedEncryptionScheme.decrypt V1MasterKeyedEncryptionScheme.encrypt
  simp only [segEncrypt, segDecrypt, hP.decode_encode]
  rw [List.take_left' hpfx, List.drop_left' hpfx, xorBytes_length _ _ hkslen]

/-- Witness for C3 (amended) at the counterexample's concrete instance. -/
theorem c3_wrong_key_decrypt_witness :
    (mkScheme toyPrims [90]).decrypt toyPrims
        ((mkScheme toyPrims [65, 65, 65, 90]).encrypt toyPrims [97]) =
      Except.ok (stripTrailingNul (xorBytes
        (xorBytes (pad4 [97])
          (toyPrims.ctrKeystream (mkScheme toyPrims [65, 65, 65, 90]).encKey
            ((toyPrims.hmacSha256 (mkScheme toyPrims [65, 65, 65, 90]).macKey [97]).take 6 ++
              List.replicate 10 0) (pad4 [97]).length))
        (toyPrims.ctrKeystream (mkScheme toyPrims [90]).encKey
          ((toyPrims.hmacSha256 (mkScheme toyPrims [65, 65, 65, 90]).macKey [97]).take 6 ++
            List.replicate 10 0) (pad4 [97]).length))) :=
  c3_wrong_key_decrypt toyPrims toyPrims_ok
    (mkScheme toyPrims [65, 65, 65, 90]) (mkScheme toyPrims [90]) [97]

/-- C9 (confirmed).  Segment encryption is deterministic: the ciphertext is a
function of the derived keys and the segment alone — any two scheme instances
with the same derived MAC/encryption keys produce the identical ciphertext
(there is no per-call or per-instance randomness in `encrypt`), and the
transported nonce material is exactly the first 6 bytes of the keyed MAC of
the segment, so the nonce too is derived solely from `(macKey, segment)`. -/
theorem c9_encrypt_deterministic (P : CryptoPrims) (hP : PrimsOK P)
    (sch1 sch2 : V1MasterKeyedEncryptionScheme)
    (hm : sch1.macKey = sch2.macKey) (he : sch1.encKey = sch2.encKey)
    (s : List Nat) :
    sch1.encrypt P s = sch2.encrypt P s ∧
    (P.b64decode (sch1.encrypt P s)).take 6 =
      (P.hmacSha256 sch1.macKey s).take 6 := by
  have hpfx : ((P.hmacSha256 sch1.macKey s).take 6).length = 6 := by
    simp [List.length_take, hP.hmac_len]
  constructor
  · unfold V1MasterKeyedEncryptionScheme.encrypt segEncrypt
    rw [hm, he]
  · unfold V1MasterKeyedEncryptionScheme.encrypt segEncrypt
    simp only [hP.decode_encode]
    rw [List.take_left' hpfx]

/-- Witness for C9: two independently constructed instances of the scheme over
the same master key encrypt a concrete segment identically. -/
theorem c9_encrypt_deterministic_witness :
    (mkScheme toyPrims [90]).encrypt toyPrims [97] =
      (mkScheme toyPrims [90]).encrypt toyPrims [97] ∧
    (toyPrims.b64decode ((mkScheme toyPrims [90]).encrypt toyPrims [97])).take 6 =
      (toyPrims.hmacSha256 (mkScheme toyPrims [90]).macKey [97]).take 6 :=
  c9_encrypt_deterministic toyPrims toyPrims_ok
    (mkScheme toyPrims [90]) (mkScheme toyPrims [90]) rfl rfl [97]

/-! ## Semaphore (src/utils/semaphore.ts)

The `Semaphore` class state: `counter` (slots handed out and not yet
released; `release` decrements it unconditionally, so it is modelled as an
integer), `waiting` (the FIFO queue of pending acquirers, identified here by
opaque ids), and the fixed capacity `max`.  `acquire` grants a slot
immediately when `counter < max` and otherwise appends the caller to
`waiting`; `release` decrements `counter` and then runs `take`, which wakes
the queue's head when a slot is free. -/

structure SemState where
  max : Nat
  counter : Int
  waiting : List Nat
deriving DecidableEq

/-- `take()`: if someone is waiting and a slot is free, increment the counter
and wake (shift) the first waiter. -/
def semTake (s : SemState) : SemState × Option Nat :=
  match s.waiting with
  | [] => (s, none)
  | w :: rest =>
    if s.counter < (s.max : Int) then
      ({ s with counter := s.counter + 1, waiting := rest }, some w)
    else (s, none)

/-- `acquire()`: immediate grant when `counter < max`, else enqueue. -/
def semAcquire (s : SemState) (id : Nat) : SemState × Bool :=
  if s.counter < (s.max : Int) then ({ s with counter := s.counter + 1 }, true)
  else ({ s with waiting := s.waiting ++ [id] }, false)

/-- `release()`: decrement, then `take()`. -/
def semRelease (s : SemState) : SemState × Option Nat :=
  semTake { s with counter := s.counter - 1 }

inductive SemOp where
  | acquire (id : Nat)
  | release
deriving DecidableEq

/-- Bookkeeping around the semaphore state: which ids were granted a slot
immediately, which were enqueued, and which were woken from the queue. -/
structure SemTrace where
  st : SemState
  granted : List Nat
  enqueued : List Nat
  woken : List Nat
deriving DecidableEq

def semInit (max : Nat) : SemTrace :=
  { st := { max := max, counter := 0, waiting := [] }
    granted := [], enqueued := [], woken := [] }

def semStep (t : SemTrace) : SemOp → SemTrace
  | .acquire id =>
    let (s, ok) := semAcquire t.st id
    if ok then { t with st := s, granted := t.granted ++ [id] }
    else { t with st := s, enqueued := t.enqueued ++ [id] }
  | .release =>
    let (s, w) := semRelease t.st
    match w with
    | some id => { t with st := s, woken := t.woken ++ [id] }
    | none => { t with st := s }

/-- All intermediate bookkeeping states along an operation sequence. -/
def semStates (t : SemTrace) (ops : List SemOp) : List SemTrace :=
  ops.scanl semStep t

/-- Every `release` matches a prior un-released grant: at the moment of each
release at least one operation is in flight. -/
def SemValidFrom (t : SemTrace) : List SemOp → Prop
  | [] => True
  | op :: rest =>
    (op = SemOp.release → 1 ≤ t.st.counter) ∧ SemValidFrom (semStep t op) rest

instance semValidDec (t : SemTrace) : ∀ ops, Decidable (SemValidFrom t ops)
  | [] => isTrue trivial
  | op :: rest =>
    haveI := semValidDec (semStep t op) rest
    inferInstanceAs (Decidable (_ ∧ _))

/-- The reachability invariant: the in-flight counter stays within
`[0, max]`, the woken ids are exactly the first enqueued ids in order, and
the queue holds the remaining enqueued ids in order. -/
def SemInv (t : SemTrace) : Prop :=
  0 ≤ t.st.counter ∧ t.st.counter ≤ (t.st.max : Int) ∧
  t.woken = t.enqueued.take t.woken.length ∧
  t.st.waiting = t.enqueued.drop t.woken.length

theorem semInv_init (max : Nat) : SemInv (semInit max) := by
  refine ⟨le_refl 0, by simp [semInit], rfl, rfl⟩

theorem semStep_acquire_grant (t : SemTrace) (id : Nat)
    (hc : t.st.counter < (t.st.max : Int)) :
    semStep t (SemOp.acquire id) =
      { t with
        st := { t.st with counter := t.st.counter + 1 }
        granted := t.granted ++ [id] } := by
  simp [semStep, semAcquire, hc]

theorem semStep_acquire_queue (t : SemTrace) (id : Nat)
    (hc : ¬t.st.counter < (t.st.max : Int)) :
    semStep t (SemOp.acquire id) =
      { t with
        st := { t.st with waiting := t.st.waiting ++ [id] }
        enqueued := t.enqueued ++ [id] } := by
  simp [semStep, semAcquire, hc]

theorem semStep_release_empty (t : SemTrace) (hw : t.st.waiting = []) :
    semStep t SemOp.release =
      { t with st := { t.st with counter := t.st.counter - 1 } } := by
  simp [semStep, semRelease, semTake, hw]

theorem semStep_release_wake (t : SemTrace) (w : Nat) (rest : List Nat)
    (hw : t.st.waiting = w :: rest) (hc : t.st.counter - 1 < (t.st.max : Int)) :
    semStep t SemOp.release =
      { t with
        st := { t.st with counter := t.st.counter - 1 + 1, waiting := rest }
        woken := t.woken ++ [w] } := by
  simp [semStep, semRelease, semTake, hw, hc]

theorem semStep_release_nowake (t : SemTrace) (w : Nat) (rest : List Nat)
    (hw : t.st.waiting = w :: rest) (hc : ¬t.st.counter - 1 < (t.st.max : Int)) :
    semStep t SemOp.release =
      { t with st := { t.st with counter := t.st.counter - 1, waiting := w :: rest } } := by
  simp [semStep, semRelease, semTake, hw, hc]

theorem semInv_step (t : SemTrace) (op : SemOp) (h : SemInv t)
    (hv : op = SemOp.release → 1 ≤ t.st.counter) : SemInv (semStep t op) := by
  obtain ⟨h0, hmax, hwoken, hwait⟩ := h
  have hwlen : t.woken.length ≤ t.enqueued.length := by
    have := congrArg List.length hwoken
    rw [List.length_take] at this
    omega
  cases op with
  | acquire id =>
    by_cases hc : t.st.counter < (t.st.max : Int)
    · rw [semStep_acquire_grant t id hc]
      refine ⟨?_, ?_, ?_, ?_⟩ <;> dsimp only
      · omega
      · omega
      · exact hwoken
      · exact hwait
    · rw [semStep_acquire_queue t id hc]
      refine ⟨?_, ?_, ?_, ?_⟩ <;> dsimp only
      · exact h0
      · exact hmax
      · rw [List.take_append_of_le_length hwlen]
        exact hwoken
      · rw [List.drop_append_of_le_length hwlen, hwait]
  | release =>
    have hge : 1 ≤ t.st.counter := hv rfl
    cases hwq : t.st.waiting with
    | nil =>
      rw [semStep_release_empty t hwq]
      refine ⟨?_, ?_, ?_, ?_⟩ <;> dsimp only
      · omega
      · omega
      · exact hwoken
      · exact hwait
    | cons w rest =>
      have hdw : t.enqueued.drop t.woken.length = w :: rest := by
        rw [← hwait, hwq]
      by_cases hc : t.st.counter - 1 < (t.st.max : Int)
      · rw [semStep_release_wake t w rest hwq hc]
        have hsplit : t.enqueued =
            t.enqueued.take t.woken.length ++ (w :: rest) := by
          conv_lhs => rw [← List.take_append_drop t.woken.length t.enqueued]
          rw [hdw]
        have hlentake : (t.enqueued.take t.woken.length).length = t.woken.length := by
          rw [List.length_take]
          omega
        have htake1 : t.enqueued.take (t.woken.length + 1) =
            t.enqueued.take t.woken.length ++ [w] := by
          conv_lhs => rw [hsplit]
          rw [show t.woken.length + 1 = (t.enqueued.take t.woken.length).length + 1 by
            rw [hlentake]]
          rw [List.take_append]
          rfl
        have hdrop1 : t.enqueued.drop (t.woken.length + 1) = rest := by
          rw [← List.drop_drop, hdw]
          rfl
        refine ⟨?_, ?_, ?_, ?_⟩ <;> dsimp only
        · omega
        · omega
        · rw [List.length_append, List.length_singleton, htake1, ← hwoken]
        · rw [List.length_append, List.length_singleton, hdrop1]
      · rw [semStep_release_nowake t w rest hwq hc]
        refine ⟨?_, ?_, ?_, ?_⟩ <;> dsimp only
        · omega
        · omega
        · exact hwoken
        · rw [← hwq]
          exact hwait

theorem semStates_inv (ops : List SemOp) :
    ∀ t : SemTrace, SemInv t → SemValidFrom t ops →
      ∀ u ∈ semStates t ops, SemInv u := by
  induction ops with
  | nil =>
    intro t ht _ u hu
    simp only [semStates, List.scanl] at hu
    rcases List.mem_singleton.mp hu with rfl
    exact ht
  | cons op rest ih =>
    intro t ht hv u hu
    simp only [semStates, List.scanl] at hu
    rcases List.mem_cons.mp hu with rfl | hu2
    · exact ht
    · exact ih (semStep t op) (semInv_step t op ht hv.1) hv.2 u hu2

theorem semStep_preserves_max (t : SemTrace) (op : SemOp) :
    (semStep t op).st.max = t.st.max := by
  cases op with
  | acquire id =>
    by_cases hc : t.st.counter < (t.st.max : Int)
    · rw [semStep_acquire_grant t id hc]
    · rw [semStep_acquire_queue t id hc]
  | release =>
    cases hwq : t.st.waiting with
    | nil => rw [semStep_release_empty t hwq]
    | cons w rest =>
      by_cases hc : t.st.counter - 1 < (t.st.max : Int)
      · rw [semStep_release_wake t w rest hwq hc]
      · rw [semStep_release_nowake t w rest hwq hc]

theorem semStates_max (ops : List SemOp) :
    ∀ t : SemTrace, ∀ u ∈ semStates t ops, u.st.max = t.st.max := by
  induction ops with
  | nil =>
    intro t u hu
    simp only [semStates, List.scanl] at hu
    rcases List.mem_singleton.mp hu with rfl
    rfl
  | cons op rest ih =>
    intro t u hu
    simp only [semStates, List.scanl] at hu
    rcases List.mem_cons.mp hu with rfl | hu2
    · rfl
    · rw [ih (semStep t op) u hu2, semStep_preserves_max]

/-- C7 (confirmed).  For every capacity `max` and every `acquire`/`release`
sequence in which each release matches a prior acquire (the in-flight count
is positive at each release), every state reachable from the fresh semaphore
keeps the in-flight counter at most `max`, and waiters are woken in FIFO
order: at every point the ids woken so far are exactly the first enqueued
ids, in their enqueue order (`withSemaphore` is `acquire`, run, `release`,
so sequences of `withSemaphore` calls are instances of this statement). -/
theorem c7_semaphore_bound_fifo (max : Nat) (ops : List SemOp)
    (hv : SemValidFrom (semInit max) ops) :
    ∀ u ∈ semStates (semInit max) ops,
      u.st.counter ≤ (max : Int) ∧
      u.woken = u.enqueued.take u.woken.length := by
  intro u hu
  have hinv := semStates_inv ops (semInit max) (semInv_init max) hv u hu
  have hmax : u.st.max = max := semStates_max ops (semInit max) u hu
  exact ⟨by rw [← hmax]; exact hinv.2.1, hinv.2.2.1⟩

/-- Witness for C7: three acquirers against capacity 2 (the third queues),
then two releases (waking the third in FIFO position). -/
theorem c7_semaphore_bound_fifo_witness :
    SemValidFrom (semInit 2)
      [SemOp.acquire 0, SemOp.acquire 1, SemOp.acquire 2, SemOp.release,
        SemOp.release] ∧
    ∀ u ∈ semStates (semInit 2)
      [SemOp.acquire 0, SemOp.acquire 1, SemOp.acquire 2, SemOp.release,
        SemOp.release],
      u.st.counter ≤ (2 : Int) ∧ u.woken = u.enqueued.take u.woken.length :=
  ⟨by decide, c7_semaphore_bound_fifo 2 _ (by decide)⟩

/-! ## Retry with linear backoff (`Semaphore.withRetrySemaphore`)

The attempts are numbered 1, 2, …: the source's `for (let i = 1; i < maxRetries; i++)`
loop performs attempts 1 … maxRetries−1, sleeping `delayMs * i` after a
failed attempt `i`, and is followed by one final attempt numbered
`maxRetries`; the final attempt's error is rethrown.  `op n` is the outcome
of the n-th invocation of the wrapped operation; the abort signal is the
`abortSignal.aborted` check at entry and inside `withSemaphore` (constant
here: nothing aborts mid-run in this model). -/

inductive RetryErr (E : Type) where
  | aborted
  | err (e : E)
deriving DecidableEq

/-- One `withSemaphore(fn)` call: acquire (always succeeds eventually; slot
accounting is modelled separately above), reject with "Aborted" if the signal
is set, otherwise run the operation, converting its exception. -/
def attemptOnce {E A : Type} (aborted : Bool) (op : Nat → Except E A)
    (i : Nat) : Except (RetryErr E) A :=
  if aborted then Except.error RetryErr.aborted
  else
    match op i with
    | Except.ok a => Except.ok a
    | Except.error e => Except.error (RetryErr.err e)

/-- The retry loop `for (let i = 1; i < maxRetries; i++)`, started at attempt
number `i` with `rem` loop iterations left.  Returns the successful value if
any attempt succeeded, the number of attempts performed, and the list of
back-off waits (`delayMs * i` after failed attempt `i`). -/
def retryLoop {E A : Type} (aborted : Bool) (op : Nat → Except E A)
    (delayMs : Nat) : Nat → Nat → Option A × Nat × List Nat
  | _, 0 => (none, 0, [])
  | i, rem + 1 =>
    match attemptOnce aborted op i with
    | Except.ok a => (some a, 1, [])
    | Except.error _ =>
      let rest := retryLoop aborted op delayMs (i + 1) rem
      (rest.1, rest.2.1 + 1, delayMs * i :: rest.2.2)

structure RetryOutcome (E A : Type) where
  result : Except (RetryErr E) A
  calls : Nat
  waits : List Nat

/-- `withRetrySemaphore(fn, _, maxRetries, {delayMs})`: early-rejects when
already aborted, runs the loop for attempts 1 … maxRetries−1, then the final
attempt; the final attempt's error propagates unchanged. -/
def withRetrySemaphoreM {E A : Type} (aborted : Bool) (op : Nat → Except E A)
    (maxRetries delayMs : Nat) : RetryOutcome E A :=
  if aborted then ⟨Except.error RetryErr.aborted, 0, []⟩
  else
    let lp := retryLoop aborted op delayMs 1 (maxRetries - 1)
    match lp.1 with
    | some a => ⟨Except.ok a, lp.2.1, lp.2.2⟩
    | none =>
      match attemptOnce aborted op maxRetries with
      | Except.ok a => ⟨Except.ok a, lp.2.1 + 1, lp.2.2⟩
      | Except.error e => ⟨Except.error e, lp.2.1 + 1, lp.2.2⟩

theorem retryLoop_allFail {E A : Type} (op : Nat → Except E A) (errOf : Nat → E)
    (hfail : ∀ n, op n = Except.error (errOf n)) (delayMs : Nat) :
    ∀ rem i, retryLoop false op delayMs i rem =
      (none, rem, (List.range rem).map (fun j => delayMs * (i + j))) := by
  intro rem
  induction rem with
  | zero => intro i; rfl
  | succ m ih =>
    intro i
    have hatt : attemptOnce false op i = Except.error (RetryErr.err (errOf i)) := by
      simp [attemptOnce, hfail i]
    show retryLoop false op delayMs i (m + 1) = _
    rw [show retryLoop false op delayMs i (m + 1) =
        match attemptOnce false op i with
        | Except.ok a => (some a, 1, [])
        | Except.error _ =>
          let rest := retryLoop false op delayMs (i + 1) m
          (rest.1, rest.2.1 + 1, delayMs * i :: rest.2.2) from rfl]
    rw [hatt, ih (i + 1)]
    refine Prod.ext rfl (Prod.ext rfl ?_)
    show delayMs * i :: (List.range m).map (fun j => delayMs * (i + 1 + j)) =
      (List.range (m + 1)).map (fun j => delayMs * (i + j))
    rw [List.range_succ_eq_map, List.map_cons, List.map_map]
    refine congrArg₂ _ (by rw [Nat.add_zero]) ?_
    refine List.map_congr_left ?_
    intro j _
    show delayMs * (i + 1 + j) = delayMs * (i + (j + 1))
    rw [show i + 1 + j = i + (j + 1) by omega]

/-- C6 (confirmed).  With `maxAttempts ≥ 1`, an operation failing on every
invocation is invoked exactly `maxAttempts` times; the waits between
consecutive attempts are `delayMs * 1, delayMs * 2, …,
delayMs * (maxAttempts − 1)` (linear backoff, `delayMs * attemptNumber`
after failed attempt `attemptNumber`); and the error finally thrown is
exactly the one produced by the last (maxAttempts-th) invocation. -/
theorem c6_retry_budget {E A : Type} (op : Nat → Except E A) (errOf : Nat → E)
    (maxAttempts delayMs : Nat) (hmax : 1 ≤ maxAttempts)
    (hfail : ∀ n, op n = Except.error (errOf n)) :
    (withRetrySemaphoreM false op maxAttempts delayMs).calls = maxAttempts ∧
    (withRetrySemaphoreM false op maxAttempts delayMs).result =
      Except.error (RetryErr.err (errOf maxAttempts)) ∧
    (withRetrySemaphoreM false op maxAttempts delayMs).waits =
      (List.range (maxAttempts - 1)).map (fun j => delayMs * (1 + j)) := by
  have hloop := retryLoop_allFail op errOf hfail delayMs (maxAttempts - 1) 1
  have hatt : attemptOnce false op maxAttempts =
      Except.error (RetryErr.err (errOf maxAttempts)) := by
    simp [attemptOnce, hfail maxAttempts]
  have hval : withRetrySemaphoreM false op maxAttempts delayMs =
      ⟨Except.error (RetryErr.err (errOf maxAttempts)), (maxAttempts - 1) + 1,
        (List.range (maxAttempts - 1)).map (fun j => delayMs * (1 + j))⟩ := by
    unfold withRetrySemaphoreM
    rw [if_neg (by simp)]
    simp only [hloop, hatt]
  rw [hval]
  refine ⟨by show maxAttempts - 1 + 1 = maxAttempts; omega, rfl, rfl⟩

/-- Witness for C6: two attempts against an always-failing operation. -/
theorem c6_retry_budget_witness :
    (withRetrySemaphoreM false (fun _ => (Except.error 0 : Except Nat Nat)) 2 5).calls = 2 ∧
    (withRetrySemaphoreM false (fun _ => (Except.error 0 : Except Nat Nat)) 2 5).result =
      Except.error (RetryErr.err 0) ∧
    (withRetrySemaphoreM false (fun _ => (Except.error 0 : Except Nat Nat)) 2 5).waits =
      (List.range 1).map (fun j => 5 * (1 + j)) :=
  c6_retry_budget (fun _ => Except.error 0) (fun _ => 0) 2 5 (by decide) (fun _ => rfl)

/-! ## State persistence (src/services/stateManager.ts)

`WorkspaceState` mirrors the exported type (string-valued fields as Lean
strings; `lastIndexStatus` is carried as an opaque serialized payload, since
its shape does not matter to any property here). -/

structure WorkspaceState where
  workspacePath : String
  codebaseId : Option String := none
  pathKey : Option String := none
  pathKeyHash : Option String := none
  orthogonalTransformSeed : Option Nat := none
  repoName : Option String := none
  repoOwner : Option String := none
  pendingChanges : Option Bool := none
  lastIndexStatus : Option String := none
  lastAutoSyncAt : Option String := none
  autoSyncBackoffMs : Option Nat := none
deriving DecidableEq

/-- The `toPersist` record of `saveWorkspaceState`: the defined field set is
copied; `pendingChanges` is defaulted with `?? false`. -/
def toPersist (st : WorkspaceState) : WorkspaceState :=
  { workspacePath := st.workspacePath
    codebaseId := st.codebaseId
    pathKey := st.pathKey
    pathKeyHash := st.pathKeyHash
    orthogonalTransformSeed := st.orthogonalTransformSeed
    repoName := st.repoName
    repoOwner := st.repoOwner
    pendingChanges := some (st.pendingChanges.getD false)
    lastIndexStatus := st.lastIndexStatus
    lastAutoSyncAt := st.lastAutoSyncAt
    autoSyncBackoffMs := st.autoSyncBackoffMs }

/-- The two filesystem entries `saveWorkspaceState` touches for one
workspace: the canonical `state.json` and the temp file `state.json.tmp`
(records stored directly; the JSON layer is a bijective serialization and is
elided). -/
structure StateFs where
  file : Option WorkspaceState
  tmp : Option WorkspaceState
deriving DecidableEq

/-- Which of the write steps fail in a given run (`fs.remove`, `fs.writeJSON`,
`fs.move`); the clean-up `fs.remove` in the catch handler can fail too and is
itself swallowed. -/
structure SaveEnv where
  preRemoveFails : Bool
  writeFails : Bool
  moveFails : Bool
  cleanupRemoveFails : Bool
deriving DecidableEq

/-- `saveWorkspaceState(st)` under the per-workspace mutex: best-effort remove
of a stale temp file (failure swallowed by the empty catch), write the
persisted record to the temp file, atomically rename it over the canonical
file; on a write or move failure, best-effort remove of the temp file and
rethrow.  Returns whether the call threw, and the resulting file system. -/
def saveWorkspaceStateM (env : SaveEnv) (fs0 : StateFs) (st : WorkspaceState) :
    Except Unit Unit × StateFs :=
  let fs1 := if env.preRemoveFails then fs0 else { fs0 with tmp := none }
  if env.writeFails then
    -- fs.writeJSON(tmp) threw: catch block removes tmp (best effort), rethrows
    let fs2 := if env.cleanupRemoveFails then fs1 else { fs1 with tmp := none }
    (Except.error (), fs2)
  else
    let fs2 : StateFs := { fs1 with tmp := some (toPersist st) }
    if env.moveFails then
      let fs3 := if env.cleanupRemoveFails then fs2 else { fs2 with tmp := none }
      (Except.error (), fs3)
    else
      (Except.ok (), { file := some (toPersist st), tmp := none })

/-- C8 (confirmed).  `saveWorkspaceState` either succeeds — leaving exactly
the persisted record (the defined field set of the argument) in the canonical
file — or throws to the caller, in which case the canonical file holds
exactly its previous contents: all writes go to the temp file, which is
renamed over the canonical file only on success, so a failed save is
observable only through the exception, never through a half-written or
altered canonical record. -/
theorem c8_save_atomic (env : SaveEnv) (fs0 : StateFs) (st : WorkspaceState) :
    ((saveWorkspaceStateM env fs0 st).1 = Except.error () ↔
      (env.writeFails = true ∨ env.moveFails = true)) ∧
    ((saveWorkspaceStateM env fs0 st).1 = Except.error () →
      (saveWorkspaceStateM env fs0 st).2.file = fs0.file) ∧
    ((saveWorkspaceStateM env fs0 st).1 = Except.ok () →
      (saveWorkspaceStateM env fs0 st).2.file = some (toPersist st)) := by
  unfold saveWorkspaceStateM
  by_cases hw : env.writeFails <;> by_cases hm : env.moveFails <;>
    by_cases hp : env.preRemoveFails <;> by_cases hcl : env.cleanupRemoveFails <;>
    simp [hw, hm, hp, hcl]

/-- Witness for C8: a failing move leaves the previous canonical record in
place, and the call reports the error. -/
theorem c8_save_atomic_witness :
    (saveWorkspaceStateM ⟨false, false, true, false⟩
        ⟨some { workspacePath := "w0" }, none⟩ { workspacePath := "w1" }).1 =
      Except.error () ∧
    (saveWorkspaceStateM ⟨false, false, true, false⟩
        ⟨some { workspacePath := "w0" }, none⟩ { workspacePath := "w1" }).2.file =
      some { workspacePath := "w0" } :=
  ⟨by decide,
    (c8_save_atomic ⟨false, false, true, false⟩
      ⟨some { workspacePath := "w0" }, none⟩ { workspacePath := "w1" }).2.1
      (by decide)⟩

/-! ## Indexing engine (src/services/repositoryIndexer.ts)

The engine's asynchronous functions are embedded as pure functions over an
environment supplying the collaborator results, producing an event trace of
the externally visible actions.  Strings holding ids, names and hashes are
Lean strings; path data stays byte lists (file identities are
workspace-relative POSIX paths; the `path.join`/`path.relative` round trip
between absolute and relative forms is elided).  Progress bars, logging, and
`startFileWatcher`/`scheduleAutoSync` are not modelled. -/

def strBytes (s : String) : List Nat := s.data.map Char.toNat

def bytesToStr (bs : List Nat) : String := String.mk (bs.map Char.ofNat)

def hexCharByte (n : Nat) : Nat := if n < 10 then 48 + n else 87 + n

def hexBytes (bs : List Nat) : List Nat :=
  (bs.map (fun b => [hexCharByte (b / 16 % 16), hexCharByte (b % 16)])).flatten

/-- `sha256Hex(str)`: hex digest of the SHA-256 of the string. -/
def sha256Hex (P : CryptoPrims) (s : String) : String :=
  bytesToStr (hexBytes (P.sha256 (strBytes s)))

/-- JS truthiness of an optional string (`undefined` and `""` are falsy). -/
def truthyS : Option String → Bool
  | none => false
  | some s => !(s == "")

/-- JS truthiness of an optional number (`undefined` and `0` are falsy). -/
def truthyN : Option Nat → Bool
  | none => false
  | some n => !(n == 0)

/-- The codebase `status` field of a handshake response: the server may send
the enum name or its numeric value, or omit it. -/
inductive StatusV where
  | strv (v : String)
  | numv (v : Nat)
  | missing
deriving DecidableEq

/-- `STATUS_UP_TO_DATE` (1) and `STATUS_OUT_OF_SYNC` (2) mark an existing
codebase. -/
def isExistingStatus : StatusV → Bool
  | StatusV.strv v => v == "STATUS_UP_TO_DATE" || v == "STATUS_OUT_OF_SYNC"
  | StatusV.numv v => v == 1 || v == 2
  | StatusV.missing => false

/-- One handshake response: the first codebase entry's id (in either key
spelling; `none` when absent) and status. -/
structure HsResp where
  codebaseId : Option String
  status : StatusV
deriving DecidableEq

/-- Result record of `initialHandshake`. -/
structure HsOut where
  codebaseId : String
  pathKeyHash : String
  repoName : String
deriving DecidableEq

/-- Externally visible events of an engine run. -/
inductive Ev where
  | handshake (repoName : String)
  | diffQuery (encPath : List Nat)
  | decryptAttempt (encPath : List Nat)
  | uploadFile (encPath : List Nat)
  | ensureIndex
  | syncComplete
  | saveState (st : WorkspaceState)
deriving DecidableEq

/-- A hinted child in a `syncMerkleSubtreeV2` mismatch response. -/
structure DiffChild where
  relativeWorkspacePath : List Nat
  hashOfNode : List Nat
deriving DecidableEq

/-- A `syncMerkleSubtreeV2` response: match, or mismatch with hinted
children. -/
structure DiffResp where
  isMatch : Bool
  children : List DiffChild
deriving DecidableEq

/-- A directory entry as produced by `listDirectChildren` (post
ignore-filtering): the child's workspace-relative POSIX path and its kind. -/
structure ChildEnt where
  relPosix : List Nat
  isDir : Bool
  isFile : Bool
deriving DecidableEq

/-- The configurable ceilings from `DEFAULTS` that the engine reads. -/
structure Defaults where
  fileSizeLimitBytes : Nat := 2097152
  initialUploadMaxFiles : Nat := 10
  syncMaxIterations : Nat := 10000
deriving DecidableEq

/-- The environment of one engine run: the loaded workspace state, the
runtime codebase-id cache, entropy, server responses and local filesystem
answers. -/
structure EngineEnv where
  workspacePath : String
  /-- result of `loadWorkspaceState(workspacePath)` -/
  st0 : WorkspaceState
  /-- `getRuntimeCodebaseId(workspacePath)` -/
  runtimeCodebaseId : Option String
  /-- `Math.floor(Math.random() * MAX_SAFE_INTEGER)` for a fresh seed -/
  seedRand : Nat
  /-- `genPathKey()` result if a fresh key is needed -/
  genKey : String
  /-- `Date.now()` at remediation time -/
  nowMs : Nat
  /-- `Math.random().toString(36).slice(2, 8)` -/
  randSuffix : String
  /-- response to the n-th `fastRepoInitHandshakeV2` call of the run -/
  hsResp : Nat → HsResp
  /-- `readEmbeddableFilesList` result (as workspace-relative POSIX paths) -/
  embeddableList : List (List Nat)
  /-- `fs.statSync(p).size` (`none`: stat threw or not a regular file) -/
  fileSize : List Nat → Option Nat
  /-- `fs.readFile` (`none`: unreadable) -/
  readFile : List Nat → Option (List Nat)
  /-- whether the (retried) `fastUpdateFileV2` for this encrypted path
  eventually succeeds -/
  uploadOk : List Nat → Bool
  /-- `merkle.getSubtreeHash` (`none`: threw) -/
  subtreeHash : List Nat → Option (List Nat)
  /-- `syncMerkleSubtreeV2` keyed by encrypted path and node hash
  (`none`: threw) -/
  diffResp : List Nat → List Nat → Option DiffResp
  /-- `listDirectChildren` -/
  listChildren : List Nat → List ChildEnt
  D : Defaults

/-- `initialHandshake(merkle, st, pathKey, baseUrl, authToken, repoName)`.
The rootHash/simhash arguments of the request do not influence control flow
and are not tracked.  When the server reports an existing codebase but the
local state has no truthy `pathKey`/`pathKeyHash`, a second handshake is made
under `repoName-<timestamp>-<randomSuffix>` and its minted id is returned. -/
def initialHandshakeM (P : CryptoPrims) (env : EngineEnv) (st : WorkspaceState)
    (pathKey repoName : String) : Except String HsOut × List Ev :=
  let pathKeyHash := sha256Hex P pathKey
  let resp := env.hsResp 0
  match resp.codebaseId with
  | none => (Except.error "No codebase_id in handshake response", [Ev.handshake repoName])
  | some codebaseId =>
    let isExistingCodebase := isExistingStatus resp.status
    let hasLocalPathKey := truthyS st.pathKey && truthyS st.pathKeyHash
    if isExistingCodebase && !hasLocalPathKey then
      let newRepoName := repoName ++ "-" ++ toString env.nowMs ++ "-" ++ env.randSuffix
      let resp2 := env.hsResp 1
      match resp2.codebaseId with
      | none =>
        (Except.error "Failed to create new codebase_id with modified repoName",
          [Ev.handshake repoName, Ev.handshake newRepoName])
      | some newCodebaseId =>
        (Except.ok ⟨newCodebaseId, pathKeyHash, newRepoName⟩,
          [Ev.handshake repoName, Ev.handshake newRepoName])
    else (Except.ok ⟨codebaseId, pathKeyHash, repoName⟩, [Ev.handshake repoName])

/-- `validateCodebasePathKey(codebaseId, pathKey, st)`, reduced to its
`isValid` result: a new/different (or untruthy) stored codebaseId is
accepted; a truthy stored `pathKeyHash` differing from the hash of the
current pathKey for the same codebaseId is a mismatch. -/
def validateCodebasePathKey (P : CryptoPrims) (codebaseId pathKey : String)
    (st : WorkspaceState) : Bool :=
  let currentPathKeyHash := sha256Hex P pathKey
  if !truthyS st.codebaseId || !(st.codebaseId == some codebaseId) then true
  else if truthyS st.pathKeyHash && !(st.pathKeyHash == some currentPathKeyHash) then false
  else true

/-- `uploadFilesChunk`: per file — read (silent skip when unreadable), skip
when oversized, encrypt the path, send `fastUpdateFileV2` through the
retrying semaphore (an exhausted retry budget is logged and skipped, never
aborting the batch; the upload RPC attempt is recorded as an event either
way, and the uploaded count grows only on success).  The per-file tasks run
under a concurrency cap; they are serialized here in file order. -/
def uploadFilesGo (P : CryptoPrims) (env : EngineEnv)
    (scheme : V1MasterKeyedEncryptionScheme) :
    List (List Nat) → Nat × List Ev → Nat × List Ev
  | [], acc => acc
  | rel :: rest, acc =>
    uploadFilesGo P env scheme rest
      (match env.readFile rel with
        | none => acc
        | some buf =>
          if env.D.fileSizeLimitBytes < buf.length then acc
          else
            let enc := encryptPathWindows P scheme rel
            (acc.1 + (if env.uploadOk enc then 1 else 0), acc.2 ++ [Ev.uploadFile enc]))

def uploadFilesChunkM (P : CryptoPrims) (env : EngineEnv)
    (scheme : V1MasterKeyedEncryptionScheme) (files : List (List Nat)) :
    Nat × List Ev :=
  uploadFilesGo P env scheme files (0, [])

/-- `chunkArray(arr, size)` (the source loops forever when `size = 0`; the
engine only calls it with the positive `INITIAL_UPLOAD_MAX_FILES`). -/
def chunkArray {α : Type} (l : List α) (size : Nat) : List (List α) :=
  if _h : size = 0 then []
  else if hl : l.isEmpty then []
  else l.take size :: chunkArray (l.drop size) size
termination_by l.length
decreasing_by
  simp only [List.length_drop]
  have h1 : 0 < l.length := by
    cases l with
    | nil => simp at hl
    | cons a t => simp
  omega

/-! ### incrementalSync -/

/-- The BFS state of `incrementalSync`: the worklist, the visited set, and
the result sets `r` (changed files), `n` (new directories), `s` (new files),
kept in insertion order like JS `Set`s. -/
structure SyncSt where
  queue : List (List Nat)
  visited : List (List Nat)
  r : List (List Nat)
  n : List (List Nat)
  s : List (List Nat)
deriving DecidableEq

/-- JS `Set.add`: append if not already present. -/
def setAdd (l : List (List Nat)) (x : List Nat) : List (List Nat) :=
  if x ∈ l then l else l ++ [x]

/-- `"."` as bytes. -/
def dotB : List Nat := [46]

/-- `"-1"` as bytes (the sentinel from the local-hash fallback). -/
def minus1B : List Nat := [45, 49]

/-- An entry of the `decryptedChildren` list in `processNode`. -/
structure DecChild where
  enc : List Nat
  plain : List Nat
  isDir : Option Bool
  isFile : Option Bool
deriving DecidableEq

/-- `processNode(relPosix)` from `incrementalSync`: skip empty/visited nodes,
hash the subtree (skip on failure), query the server diff for the encrypted
node path (skip on failure), prune on match; with hinted children, decrypt
each hint, compare server and fresh local hashes, classify mismatches into
the changed-file set and the descent queue and hint-absent locals into the
new sets; without hints, fall back to listing the local children. -/
def processNode (P : CryptoPrims) (env : EngineEnv)
    (scheme : V1MasterKeyedEncryptionScheme) (stt : SyncSt)
    (relPosix : List Nat) : SyncSt × List Ev :=
  if relPosix = [] ∨ relPosix ∈ stt.visited then (stt, [])
  else
    let stt1 := { stt with visited := stt.visited ++ [relPosix] }
    match env.subtreeHash (if relPosix = dotB then [] else relPosix) with
    | none => (stt1, [])
    | some hash =>
      let encPath := encryptPathWindows P scheme (if relPosix = dotB then [] else relPosix)
      match env.diffResp encPath hash with
      | none => (stt1, [Ev.diffQuery encPath])
      | some syncRes =>
        if syncRes.isMatch then (stt1, [Ev.diffQuery encPath])
        else if 0 < syncRes.children.length then
          let localChildren := env.listChildren relPosix
          let decEvs := syncRes.children.map
            (fun c => Ev.decryptAttempt c.relativeWorkspacePath)
          let decryptedChildren : List DecChild := syncRes.children.map (fun c =>
            let plain := decryptPathToRelPosixCore P scheme c.relativeWorkspacePath
            let mapping := localChildren.find? (fun lc => lc.relPosix == plain)
            ⟨c.relativeWorkspacePath, plain, mapping.map (fun m => m.isDir),
              mapping.map (fun m => m.isFile)⟩)
          let localHashMap : List (List Nat × List Nat) := decryptedChildren.map
            (fun c => (c.plain, (env.subtreeHash c.plain).getD minus1B))
          let misMatched : List DecChild := syncRes.children.filterMap (fun c =>
            match decryptedChildren.find? (fun x => x.enc == c.relativeWorkspacePath) with
            | none => none
            | some dec =>
              let serverH := c.hashOfNode
              let localH := ((localHashMap.find? (fun kv => kv.1 == dec.plain)).map
                (fun kv => kv.2)).getD []
              if serverH = localH ∨ localH = minus1B ∨ localH = [] then none
              else some dec)
          let entries := env.listChildren relPosix
          let trueFiles := (entries.filter (fun e => e.isFile)).map (fun e => e.relPosix)
          let trueDirs := (entries.filter (fun e => e.isDir)).map (fun e => e.relPosix)
          let stt2 := { stt1 with
            r := (misMatched.filter (fun (x : DecChild) => decide (x.plain ∈ trueFiles))).foldl
              (fun acc (x : DecChild) => setAdd acc x.plain) stt1.r
            queue := stt1.queue ++
              (misMatched.filter (fun (x : DecChild) => decide (x.plain ∈ trueDirs))).map
                (fun (x : DecChild) => x.plain) }
          let resolvedPlain := decryptedChildren.map (fun (x : DecChild) => x.plain)
          let newDirs := trueDirs.filter (fun q => decide (q ∉ resolvedPlain))
          let newFiles := trueFiles.filter (fun q => decide (q ∉ resolvedPlain))
          let stt3 := { stt2 with
            n := newDirs.foldl setAdd stt2.n
            s := newFiles.foldl setAdd stt2.s }
          (stt3, Ev.diffQuery encPath :: decEvs)
        else
          let kids := env.listChildren relPosix
          if kids = [] then
            (if relPosix ≠ dotB then { stt1 with s := setAdd stt1.s relPosix } else stt1,
              [Ev.diffQuery encPath])
          else
            ({ stt1 with
              queue := stt1.queue ++
                (kids.filter (fun k => k.isDir)).map (fun k => k.relPosix)
              r := (kids.filter (fun k => k.isFile)).foldl
                (fun acc k => setAdd acc k.relPosix) stt1.r },
              [Ev.diffQuery encPath])

/-- The worklist loop of `incrementalSync`: shift queue entries, skipping
falsy and already-visited ones (which do not consume an iteration), process
the node, until the queue empties or `SYNC_MAX_ITERATIONS` nodes were
processed. -/
def popUnvisited (visited : List (List Nat)) :
    List (List Nat) → Option (List Nat × List (List Nat))
  | [] => none
  | x :: xs => if x = [] ∨ x ∈ visited then popUnvisited visited xs else some (x, xs)

def syncLoop (P : CryptoPrims) (env : EngineEnv)
    (scheme : V1MasterKeyedEncryptionScheme) : Nat → SyncSt → SyncSt × List Ev
  | 0, stt => (stt, [])
  | it + 1, stt =>
    match popUnvisited stt.visited stt.queue with
    | none => (stt, [])
    | some (rel, rest) =>
      let pr := processNode P env scheme { stt with queue := rest } rel
      let lp := syncLoop P env scheme it pr.1
      (lp.1, pr.2 ++ lp.2)

/-- `incrementalSync`: BFS from `"."`, returning the deduplicated union of
the changed-file set `r` and the new-file set `s`. -/
def incrementalSyncM (P : CryptoPrims) (env : EngineEnv)
    (scheme : V1MasterKeyedEncryptionScheme) : List (List Nat) × List Ev :=
  let res := syncLoop P env scheme env.D.syncMaxIterations ⟨[dotB], [], [], [], []⟩
  ((res.1.r ++ res.1.s).foldl setAdd [], res.2)

/-! ### indexProject -/

/-- `if (!st.orthogonalTransformSeed) st.orthogonalTransformSeed = random`
(JS falsiness: absent or 0). -/
def effSeed (env : EngineEnv) : Nat :=
  match env.st0.orthogonalTransformSeed with
  | some sv => if sv = 0 then env.seedRand else sv
  | none => env.seedRand

/-- `let pathKey = st.pathKey; if (!pathKey) pathKey = genPathKey()`. -/
def effPathKey (env : EngineEnv) : String :=
  match env.st0.pathKey with
  | some k => if k = "" then env.genKey else k
  | none => env.genKey

/-- `local-` + first 12 hex digits of sha256(workspacePath). -/
def defaultRepoName (P : CryptoPrims) (env : EngineEnv) : String :=
  "local-" ++ bytesToStr ((hexBytes (P.sha256 (strBytes env.workspacePath))).take 12)

/-- `st.repoName || "local-..."`. -/
def effRepoName (P : CryptoPrims) (env : EngineEnv) : String :=
  match env.st0.repoName with
  | some r => if r = "" then defaultRepoName P env else r
  | none => defaultRepoName P env

/-- The state record as it stands at handshake time: loaded state with the
resolved workspace path and the (possibly freshly generated) seed. -/
def stMut (env : EngineEnv) : WorkspaceState :=
  { env.st0 with
    workspacePath := env.workspacePath
    orthogonalTransformSeed := some (effSeed env) }

/-- The `initialHandshake` call exactly as `indexProject` issues it. -/
def indexHandshake (P : CryptoPrims) (env : EngineEnv) :
    Except String HsOut × List Ev :=
  initialHandshakeM P env (stMut env) (effPathKey env) (effRepoName P env)

structure IndexResult where
  codebaseId : String
  uploaded : Nat
  batches : Nat
deriving DecidableEq

/-- `indexProject(params)`: load state, resolve seed/pathKey/repoName,
discover and size-filter the files (aborting on an empty list), handshake
once, validate the pathKey binding for the returned codebaseId (aborting on
a confirmed mismatch), persist the identity immediately, then upload in
batches — each batch followed by the idempotent ensure-index and
sync-complete calls — and persist the final state with
`pendingChanges := false`. -/
def indexProjectM (P : CryptoPrims) (env : EngineEnv) :
    Except String IndexResult × List Ev :=
  let pathKey := effPathKey env
  let scheme := mkScheme P (strBytes pathKey)
  if env.embeddableList = [] then
    (Except.error "embeddableFilesPath yielded empty file list", [])
  else
    let filtered := env.embeddableList.filter (fun f =>
      match env.fileSize f with
      | some nsz => nsz ≤ env.D.fileSizeLimitBytes
      | none => false)
    let batches := chunkArray filtered env.D.initialUploadMaxFiles
    let hs := indexHandshake P env
    match hs.1 with
    | Except.error e => (Except.error e, hs.2)
    | Except.ok out =>
      if !(validateCodebasePathKey P out.codebaseId pathKey (stMut env)) then
        (Except.error "PathKey mismatch detected. Cannot proceed with indexing.", hs.2)
      else
        let st1 : WorkspaceState :=
          { stMut env with
            pathKey := some pathKey
            pathKeyHash := some out.pathKeyHash
            codebaseId := some out.codebaseId
            repoName := some out.repoName
            repoOwner := some (match (stMut env).repoOwner with
              | some o => if o = "" then "local-user" else o
              | none => "local-user") }
        let up := batches.foldl
          (fun acc batch =>
            let uc := uploadFilesChunkM P env scheme batch
            (acc.1 + uc.1, acc.2 ++ uc.2 ++ [Ev.ensureIndex, Ev.syncComplete]))
          ((0 : Nat), ([] : List Ev))
        let st2 : WorkspaceState := { st1 with pendingChanges := some false }
        (Except.ok ⟨out.codebaseId, up.1, batches.length⟩,
          hs.2 ++ [Ev.saveState st1] ++ up.2 ++ [Ev.saveState st2])

/-- `autoSyncIfNeeded(workspacePath)`: requires a truthy codebaseId (runtime
cache falling back to state), pathKey and seed, and a pending-changes flag;
runs the incremental diff; returns with no further action when the changed
set is empty; otherwise uploads the changed files, issues ensure-index and
sync-complete, and persists the state with `pendingChanges := false`. -/
def autoSyncIfNeededM (P : CryptoPrims) (env : EngineEnv) : List Ev :=
  let st := env.st0
  let runtimeId :=
    if truthyS env.runtimeCodebaseId then env.runtimeCodebaseId else st.codebaseId
  if !truthyS runtimeId || !truthyS st.pathKey || !truthyN st.orthogonalTransformSeed then []
  else if !(st.pendingChanges == some true) then []
  else
    let scheme := mkScheme P (strBytes (st.pathKey.getD ""))
    let inc := incrementalSyncM P env scheme
    if inc.1 = [] then inc.2
    else
      let up := uploadFilesChunkM P env scheme inc.1
      let stSaved := { st with pendingChanges := some false }
      inc.2 ++ up.2 ++ [Ev.ensureIndex, Ev.syncComplete, Ev.saveState stSaved]

/-! ### Trace lemmas -/

def isHandshakeEv : Ev → Bool
  | Ev.handshake _ => true
  | _ => false

def isDiffQueryEv : Ev → Bool
  | Ev.diffQuery _ => true
  | _ => false

def isUploadEv : Ev → Bool
  | Ev.uploadFile _ => true
  | _ => false

/-- Events that `incrementalSync` can emit: diff queries and decryption of
server-hinted paths. -/
def isDiffLikeEv : Ev → Bool
  | Ev.diffQuery _ => true
  | Ev.decryptAttempt _ => true
  | _ => false

/-- The trace of `initialHandshake` is one or two handshake events, the
first under the given repository name. -/
theorem initialHandshakeM_trace_cases (P : CryptoPrims) (env : EngineEnv)
    (st : WorkspaceState) (pathKey repoName : String) :
    (initialHandshakeM P env st pathKey repoName).2 = [Ev.handshake repoName] ∨
    ∃ rn2, (initialHandshakeM P env st pathKey repoName).2 =
      [Ev.handshake repoName, Ev.handshake rn2] := by
  unfold initialHandshakeM
  dsimp only
  cases h0 : (env.hsResp 0).codebaseId with
  | none => exact Or.inl rfl
  | some cid =>
    dsimp only
    by_cases hcond : (isExistingStatus (env.hsResp 0).status &&
        !(truthyS st.pathKey && truthyS st.pathKeyHash)) = true
    · rw [if_pos hcond]
      cases h1 : (env.hsResp 1).codebaseId with
      | none => exact Or.inr ⟨_, rfl⟩
      | some nid => exact Or.inr ⟨_, rfl⟩
    · rw [if_neg hcond]
      exact Or.inl rfl

theorem uploadFilesGo_events (P : CryptoPrims) (env : EngineEnv)
    (scheme : V1MasterKeyedEncryptionScheme) :
    ∀ (files : List (List Nat)) (acc : Nat × List Ev),
      ∀ ev ∈ (uploadFilesGo P env scheme files acc).2,
        ev ∈ acc.2 ∨ isUploadEv ev = true := by
  intro files
  induction files with
  | nil =>
    intro acc ev hev
    exact Or.inl hev
  | cons rel rest ih =>
    intro acc ev hev
    rw [show uploadFilesGo P env scheme (rel :: rest) acc =
        uploadFilesGo P env scheme rest
          (match env.readFile rel with
            | none => acc
            | some buf =>
              if env.D.fileSizeLimitBytes < buf.length then acc
              else
                (acc.1 + (if env.uploadOk (encryptPathWindows P scheme rel) then 1 else 0),
                  acc.2 ++ [Ev.uploadFile (encryptPathWindows P scheme rel)])) from rfl] at hev
    cases hrd : env.readFile rel with
    | none =>
      rw [hrd] at hev
      exact ih acc ev hev
    | some buf =>
      rw [hrd] at hev
      dsimp only at hev
      by_cases hsz : env.D.fileSizeLimitBytes < buf.length
      · rw [if_pos hsz] at hev
        exact ih acc ev hev
      · rw [if_neg hsz] at hev
        rcases ih _ ev hev with hin | hup
        · rcases List.mem_append.mp hin with hin2 | hin3
          · exact Or.inl hin2
          · rcases List.mem_singleton.mp hin3 with rfl
            exact Or.inr rfl
        · exact Or.inr hup

theorem processNode_events (P : CryptoPrims) (env : EngineEnv)
    (scheme : V1MasterKeyedEncryptionScheme) (stt : SyncSt) (rel : List Nat) :
    ∀ ev ∈ (processNode P env scheme stt rel).2, isDiffLikeEv ev = true := by
  intro ev hev
  unfold processNode at hev
  split at hev
  · simp at hev
  · dsimp only at hev
    split at hev
    · simp at hev
    · split at hev
      · rcases List.mem_singleton.mp hev with rfl
        rfl
      · split at hev
        · rcases List.mem_singleton.mp hev with rfl
          rfl
        · split at hev
          · rcases List.mem_cons.mp hev with rfl | hmem
            · rfl
            · obtain ⟨c, _, rfl⟩ := List.mem_map.mp hmem
              rfl
          · split at hev
            · rcases List.mem_singleton.mp hev with rfl
              rfl
            · rcases List.mem_singleton.mp hev with rfl
              rfl

theorem syncLoop_events (P : CryptoPrims) (env : EngineEnv)
    (scheme : V1MasterKeyedEncryptionScheme) :
    ∀ (it : Nat) (stt : SyncSt),
      ∀ ev ∈ (syncLoop P env scheme it stt).2, isDiffLikeEv ev = true := by
  intro it
  induction it with
  | zero =>
    intro stt ev hev
    simp [syncLoop] at hev
  | succ m ih =>
    intro stt ev hev
    cases hpop : popUnvisited stt.visited stt.queue with
    | none =>
      simp only [syncLoop, hpop] at hev
      simp at hev
    | some pr =>
      simp only [syncLoop, hpop] at hev
      rcases List.mem_append.mp hev with h1 | h2
      · exact processNode_events P env scheme _ _ ev h1
      · exact ih _ ev h2

theorem incrementalSyncM_events (P : CryptoPrims) (env : EngineEnv)
    (scheme : V1MasterKeyedEncryptionScheme) :
    ∀ ev ∈ (incrementalSyncM P env scheme).2, isDiffLikeEv ev = true := by
  intro ev hev
  exact syncLoop_events P env scheme _ _ ev hev

/-! ## Claims C1, C4, C5, C10 -/

theorem validate_mismatch (P : CryptoPrims) (X H1 pathKey : String)
    (st : WorkspaceState)
    (hcid : st.codebaseId = some X) (hXne : X ≠ "")
    (hh1 : st.pathKeyHash = some H1) (hH1ne : H1 ≠ "")
    (hneq : sha256Hex P pathKey ≠ H1) :
    validateCodebasePathKey P X pathKey st = false := by
  unfold validateCodebasePathKey
  dsimp only
  rw [hcid, hh1]
  have h1 : truthyS (some X) = true := by simp [truthyS, hXne]
  have h2 : truthyS (some H1) = true := by simp [truthyS, hH1ne]
  have h4 : (some H1 == some (sha256Hex P pathKey)) = false := by
    rw [show (some H1 == some (sha256Hex P pathKey)) =
      (H1 == sha256Hex P pathKey) from rfl]
    exact beq_eq_false_iff_ne.mpr (Ne.symm hneq)
  rw [h1, h2, h4]
  simp

/-- C1 (confirmed).  If the persisted state binds `codebaseId = X` (truthy)
to `pathKeyHash = H1` (truthy), the freshly computed hash of the effective
pathKey differs from `H1`, and the handshake phase returns the same
codebaseId `X`, then `indexProject` throws, and its whole trace contains no
file-upload RPC and no path-decryption attempt — the run aborts during
validation, before the upload loop, and `indexProject` performs no
decryption at all (decryption happens only in the incremental-sync path). -/
theorem c1_mismatch_aborts (P : CryptoPrims) (env : EngineEnv) (X H1 : String)
    (out : HsOut)
    (hcid : env.st0.codebaseId = some X) (hXne : X ≠ "")
    (hh1 : env.st0.pathKeyHash = some H1) (hH1ne : H1 ≠ "")
    (hneq : sha256Hex P (effPathKey env) ≠ H1)
    (hhs : (indexHandshake P env).1 = Except.ok out)
    (hsame : out.codebaseId = X) :
    (indexProjectM P env).1.isOk = false ∧
    (∀ q, Ev.uploadFile q ∉ (indexProjectM P env).2) ∧
    (∀ q, Ev.decryptAttempt q ∉ (indexProjectM P env).2) := by
  have hval : validateCodebasePathKey P out.codebaseId (effPathKey env)
      (stMut env) = false := by
    rw [hsame]
    exact validate_mismatch P X H1 (effPathKey env) (stMut env) hcid hXne hh1 hH1ne hneq
  by_cases hemp : env.embeddableList = []
  · have hres : indexProjectM P env =
        (Except.error "embeddableFilesPath yielded empty file list", []) := by
      unfold indexProjectM
      rw [if_pos hemp]
    rw [hres]
    exact ⟨rfl, by simp, by simp⟩
  · have hres : indexProjectM P env =
        (Except.error "PathKey mismatch detected. Cannot proceed with indexing.",
          (indexHandshake P env).2) := by
      unfold indexProjectM
      rw [if_neg hemp]
      dsimp only
      rw [hhs]
      dsimp only
      rw [hval]
      simp
    rw [hres]
    have hc := initialHandshakeM_trace_cases P env (stMut env) (effPathKey env)
      (effRepoName P env)
    refine ⟨rfl, ?_, ?_⟩
    · intro q hq
      rcases hc with h | ⟨rn2, h⟩ <;>
        rw [show (indexHandshake P env).2 =
          (initialHandshakeM P env (stMut env) (effPathKey env)
            (effRepoName P env)).2 from rfl, h] at hq <;>
        simp at hq
    · intro q hq
      rcases hc with h | ⟨rn2, h⟩ <;>
        rw [show (indexHandshake P env).2 =
          (initialHandshakeM P env (stMut env) (effPathKey env)
            (effRepoName P env)).2 from rfl, h] at hq <;>
        simp at hq

/-- Environment for the C1 witness: state binds codebaseId `"X"` to
`pathKeyHash "H1"` while the stored pathKey `"k"` hashes to something else;
the server returns `"X"` as an up-to-date codebase. -/
def cEnvC1 : EngineEnv :=
  { workspacePath := "w"
    st0 :=
      { workspacePath := "w"
        codebaseId := some "X"
        pathKey := some "k"
        pathKeyHash := some "H1"
        orthogonalTransformSeed := some 1
        repoName := some "repo" }
    runtimeCodebaseId := none
    seedRand := 1
    genKey := "g"
    nowMs := 0
    randSuffix := "r"
    hsResp := fun _ => ⟨some "X", StatusV.numv 1⟩
    embeddableList := [[97]]
    fileSize := fun _ => some 0
    readFile := fun _ => some []
    uploadOk := fun _ => true
    subtreeHash := fun _ => none
    diffResp := fun _ _ => none
    listChildren := fun _ => []
    D := {} }

/-- Witness for C1 at a concrete run. -/
theorem c1_mismatch_aborts_witness :
    cEnvC1.st0.codebaseId = some "X" ∧
    cEnvC1.st0.pathKeyHash = some "H1" ∧
    sha256Hex toyPrims (effPathKey cEnvC1) ≠ "H1" ∧
    (indexHandshake toyPrims cEnvC1).1 =
      Except.ok ⟨"X", sha256Hex toyPrims "k", "repo"⟩ ∧
    (indexProjectM toyPrims cEnvC1).1.isOk = false :=
  ⟨rfl, rfl, by decide, by decide,
    (c1_mismatch_aborts toyPrims cEnvC1 "X" "H1"
      ⟨"X", sha256Hex toyPrims "k", "repo"⟩ rfl (by decide) rfl (by decide)
      (by decide) (by decide) rfl).1⟩

/-- C4 (confirmed).  When the first handshake reports an *existing* codebase
but the local state has no (truthy) stored pathKey/pathKeyHash,
`initialHandshake` performs a second handshake whose repository identity is
the original repoName with the `-<timestamp>-<random>` suffix appended, and
returns the codebaseId minted by that second handshake together with the
current pathKey's hash and the disambiguated repoName (which `indexProject`
then persists, binding the fresh codebaseId to the current pathKey). -/
theorem c4_latent_collision_remediation (P : CryptoPrims) (env : EngineEnv)
    (st : WorkspaceState) (pathKey repoName cid nid : String)
    (h0 : (env.hsResp 0).codebaseId = some cid)
    (hex2 : isExistingStatus (env.hsResp 0).status = true)
    (hnl : (truthyS st.pathKey && truthyS st.pathKeyHash) = false)
    (h1 : (env.hsResp 1).codebaseId = some nid) :
    initialHandshakeM P env st pathKey repoName =
      (Except.ok ⟨nid, sha256Hex P pathKey,
          repoName ++ "-" ++ toString env.nowMs ++ "-" ++ env.randSuffix⟩,
        [Ev.handshake repoName,
          Ev.handshake (repoName ++ "-" ++ toString env.nowMs ++ "-" ++ env.randSuffix)]) := by
  unfold initialHandshakeM
  dsimp only
  rw [h0]
  dsimp only
  rw [if_pos (by rw [hex2, hnl]; rfl)]
  rw [h1]

/-- State and environment for the C4 witness: no local pathKey, an existing
remote codebase `"old"`, and a second handshake minting `"fresh"`. -/
def cStC4 : WorkspaceState := { workspacePath := "w" }

def cEnvC4 : EngineEnv :=
  { workspacePath := "w"
    st0 := cStC4
    runtimeCodebaseId := none
    seedRand := 1
    genKey := "g"
    nowMs := 5
    randSuffix := "abc"
    hsResp := fun n =>
      if n = 0 then ⟨some "old", StatusV.numv 1⟩ else ⟨some "fresh", StatusV.missing⟩
    embeddableList := []
    fileSize := fun _ => none
    readFile := fun _ => none
    uploadOk := fun _ => false
    subtreeHash := fun _ => none
    diffResp := fun _ _ => none
    listChildren := fun _ => []
    D := {} }

/-- Witness for C4 at a concrete run. -/
theorem c4_latent_collision_remediation_witness :
    (cEnvC4.hsResp 0).codebaseId = some "old" ∧
    isExistingStatus (cEnvC4.hsResp 0).status = true ∧
    (truthyS cStC4.pathKey && truthyS cStC4.pathKeyHash) = false ∧
    (cEnvC4.hsResp 1).codebaseId = some "fresh" ∧
    initialHandshakeM toyPrims cEnvC4 cStC4 "pk" "repo" =
      (Except.ok ⟨"fresh", sha256Hex toyPrims "pk",
          "repo" ++ "-" ++ toString cEnvC4.nowMs ++ "-" ++ cEnvC4.randSuffix⟩,
        [Ev.handshake "repo",
          Ev.handshake ("repo" ++ "-" ++ toString cEnvC4.nowMs ++ "-" ++ cEnvC4.randSuffix)]) :=
  ⟨by decide, by decide, by decide, by decide,
    c4_latent_collision_remediation toyPrims cEnvC4 cStC4 "pk" "repo" "old" "fresh"
      (by decide) (by decide) (by decide) (by decide)⟩

/-- Environment in which `autoSyncIfNeeded` has a usable persisted identity
and pending changes, the root diff mismatches without hints, and one local
file exists — so the run issues a diff query and an upload. -/
def cEnvC5 : EngineEnv :=
  { workspacePath := "w"
    st0 :=
      { workspacePath := "w"
        codebaseId := some "cb"
        pathKey := some "k"
        orthogonalTransformSeed := some 1
        pendingChanges := some true }
    runtimeCodebaseId := none
    seedRand := 1
    genKey := "g"
    nowMs := 0
    randSuffix := "r"
    hsResp := fun _ => ⟨none, StatusV.missing⟩
    embeddableList := []
    fileSize := fun _ => none
    readFile := fun _ => some []
    uploadOk := fun _ => true
    subtreeHash := fun _ => some [104]
    diffResp := fun _ _ => some ⟨false, []⟩
    listChildren := fun rel => if rel = dotB then [⟨[97], false, true⟩] else []
    D := {} }

/-- C5 (counterexample).  The claim says every sync run — "in particular the
incremental resync path (`autoSyncIfNeeded`)" — begins with a handshake
before any diff query or upload.  `autoSyncIfNeeded` performs no handshake
at all: in this concrete run it issues a diff query and an upload while its
trace contains no handshake event. -/
theorem c5_handshake_order_counterexample :
    (autoSyncIfNeededM toyPrims cEnvC5).any isDiffQueryEv = true ∧
    (autoSyncIfNeededM toyPrims cEnvC5).any isUploadEv = true ∧
    (autoSyncIfNeededM toyPrims cEnvC5).all (fun ev => !isHandshakeEv ev) = true := by
  refine ⟨by decide, by decide, by decide⟩

/-- C5 (amended).  In `indexProject` (the full/initial path) the handshake
does come first: the trace is empty (early abort) or begins with a handshake
event, so every diff query or upload of that run is preceded by a handshake.
The incremental resync path performs no handshake: `autoSyncIfNeeded` reuses
the persisted codebaseId and proceeds directly to diff queries and uploads —
its trace never contains a handshake event. -/
theorem c5_handshake_order_amended (P : CryptoPrims) (env : EngineEnv) :
    ((indexProjectM P env).2 = [] ∨
      ∃ rest, (indexProjectM P env).2 = Ev.handshake (effRepoName P env) :: rest) ∧
    (∀ rn, Ev.handshake rn ∉ autoSyncIfNeededM P env) := by
  constructor
  · by_cases hemp : env.embeddableList = []
    · left
      unfold indexProjectM
      rw [if_pos hemp]
    · right
      have hhead : ∃ tail, (indexHandshake P env).2 =
          Ev.handshake (effRepoName P env) :: tail := by
        rcases initialHandshakeM_trace_cases P env (stMut env) (effPathKey env)
          (effRepoName P env) with h | ⟨rn2, h⟩
        · exact ⟨[], h⟩
        · exact ⟨[Ev.handshake rn2], h⟩
      obtain ⟨tail, htail⟩ := hhead
      have hgen : ∀ l2 l3 l4 : List Ev, ∃ rest,
          (indexHandshake P env).2 ++ l2 ++ l3 ++ l4 =
            Ev.handshake (effRepoName P env) :: rest := by
        intro l2 l3 l4
        refine ⟨tail ++ l2 ++ l3 ++ l4, ?_⟩
        rw [htail]
        simp
      unfold indexProjectM
      rw [if_neg hemp]
      dsimp only
      cases hres : (indexHandshake P env).1 with
      | error e =>
        dsimp only
        exact ⟨tail, htail⟩
      | ok out =>
        dsimp only
        by_cases hv : validateCodebasePathKey P out.codebaseId (effPathKey env)
            (stMut env) = true
        · simp only [hv, Bool.not_true, Bool.false_eq_true, if_false]
          exact hgen _ _ _
        · rw [Bool.not_eq_true] at hv
          simp only [hv, Bool.not_false, if_true]
          exact ⟨tail, htail⟩
  · intro rn hmem
    unfold autoSyncIfNeededM at hmem
    dsimp only at hmem
    by_cases h1 : (!truthyS (if truthyS env.runtimeCodebaseId then env.runtimeCodebaseId
        else env.st0.codebaseId) || !truthyS env.st0.pathKey ||
        !truthyN env.st0.orthogonalTransformSeed) = true
    · rw [if_pos h1] at hmem
      simp at hmem
    · rw [if_neg h1] at hmem
      by_cases h2 : (!(env.st0.pendingChanges == some true)) = true
      · rw [if_pos h2] at hmem
        simp at hmem
      · rw [if_neg h2] at hmem
        by_cases h3 : (incrementalSyncM P env
            (mkScheme P (strBytes (env.st0.pathKey.getD "")))).1 = []
        · rw [if_pos h3] at hmem
          have := incrementalSyncM_events P env _ _ hmem
          simp [isDiffLikeEv] at this
        · rw [if_neg h3] at hmem
          rcases List.mem_append.mp hmem with h4 | h5
          · rcases List.mem_append.mp h4 with h6 | h7
            · have := incrementalSyncM_events P env _ _ h6
              simp [isDiffLikeEv] at this
            · rcases uploadFilesGo_events P env _ _ _ _ h7 with h8 | h9
              · simp at h8
              · simp [isUploadEv] at h9
          · simp at h5

/-- The changed-path set the auto-sync run computes (the deduplicated union
the incremental diff returns). -/
def autoChangedSet (P : CryptoPrims) (env : EngineEnv) : List (List Nat) :=
  (incrementalSyncM P env (mkScheme P (strBytes (env.st0.pathKey.getD "")))).1

/-- C10 (confirmed).  If the persisted state has `pendingChanges = true` and
the incremental diff returns an empty changed set, `autoSyncIfNeeded`
returns after the diff: its trace contains no upload, no ensure-index, no
sync-complete, and no state write — in particular, since the only way
`pendingChanges` is cleared is the state write at the end of a non-empty
sync, the persisted record still holds `pendingChanges = true` after the
run. -/
theorem c10_empty_diff_no_effects (P : CryptoPrims) (env : EngineEnv)
    (hpend : env.st0.pendingChanges = some true)
    (hempty : autoChangedSet P env = []) :
    (∀ q, Ev.uploadFile q ∉ autoSyncIfNeededM P env) ∧
    Ev.ensureIndex ∉ autoSyncIfNeededM P env ∧
    Ev.syncComplete ∉ autoSyncIfNeededM P env ∧
    (∀ st2, Ev.saveState st2 ∉ autoSyncIfNeededM P env) := by
  have hall : ∀ ev ∈ autoSyncIfNeededM P env, isDiffLikeEv ev = true := by
    intro ev hmem
    unfold autoSyncIfNeededM at hmem
    dsimp only at hmem
    by_cases h1 : (!truthyS (if truthyS env.runtimeCodebaseId then env.runtimeCodebaseId
        else env.st0.codebaseId) || !truthyS env.st0.pathKey ||
        !truthyN env.st0.orthogonalTransformSeed) = true
    · rw [if_pos h1] at hmem
      simp at hmem
    · rw [if_neg h1] at hmem
      by_cases h2 : (!(env.st0.pendingChanges == some true)) = true
      · rw [if_pos h2] at hmem
        simp at hmem
      · rw [if_neg h2] at hmem
        by_cases h3 : (incrementalSyncM P env
            (mkScheme P (strBytes (env.st0.pathKey.getD "")))).1 = []
        · rw [if_pos h3] at hmem
          exact incrementalSyncM_events P env _ ev hmem
        · exact absurd hempty h3
  refine ⟨?_, ?_, ?_, ?_⟩
  · intro q hq
    have := hall _ hq
    simp [isDiffLikeEv] at this
  · intro hq
    have := hall _ hq
    simp [isDiffLikeEv] at this
  · intro hq
    have := hall _ hq
    simp [isDiffLikeEv] at this
  · intro st2 hq
    have := hall _ hq
    simp [isDiffLikeEv] at this

/-- Environment for the C10 witness: pending changes are set but the root
diff reports a match, so the changed set is empty. -/
def cEnvC10 : EngineEnv :=
  { workspacePath := "w"
    st0 :=
      { workspacePath := "w"
        codebaseId := some "cb"
        pathKey := some "k"
        orthogonalTransformSeed := some 1
        pendingChanges := some true }
    runtimeCodebaseId := none
    seedRand := 1
    genKey := "g"
    nowMs := 0
    randSuffix := "r"
    hsResp := fun _ => ⟨none, StatusV.missing⟩
    embeddableList := []
    fileSize := fun _ => none
    readFile := fun _ => some []
    uploadOk := fun _ => true
    subtreeHash := fun _ => some [104]
    diffResp := fun _ _ => some ⟨true, []⟩
    listChildren := fun _ => []
    D := {} }

/-- Witness for C10 at a concrete run. -/
theorem c10_empty_diff_no_effects_witness :
    cEnvC10.st0.pendingChanges = some true ∧
    autoChangedSet toyPrims cEnvC10 = [] ∧
    Ev.ensureIndex ∉ autoSyncIfNeededM toyPrims cEnvC10 ∧
    Ev.syncComplete ∉ autoSyncIfNeededM toyPrims cEnvC10 :=
  ⟨rfl, by decide,
    (c10_empty_diff_no_effects toyPrims cEnvC10 rfl (by decide)).2.1,
    (c10_empty_diff_no_effects toyPrims cEnvC10 rfl (by decide)).2.2.1⟩

end McpCursearch
